import Mathlib

/-!
Verification of the HandReadings poker evaluation engine.

The definitions below are a shallow embedding of the TypeScript sources:
`src/lib/models/Card.ts` (card model) and the hand-evaluation module
(`combinations`, `isQualifyingLow`, `compareLowHands`, `checkStraight`,
`evaluateHand`, `getHighCard`, `getStraightHighCard`, `getRepeatedRank`,
`getTwoPairRanks`, `compareHighHands`, `findBestHand`,
`getLowHandDescription`).

Modelling conventions:
- JavaScript numbers used for card values are modelled as `ℕ`; the
  subtraction inside the consecutiveness check is performed in `ℤ`, as in
  JavaScript.
- `Math.max(...list)` over a possibly-empty list yields `-Infinity` in
  JavaScript; it is modelled as `List.maximum : List ℕ → WithBot ℕ`, whose
  `⊥` behaves exactly like `-Infinity` under `<`.
- A code path that throws at runtime (array `reduce` on an empty array, a
  `find` miss dereferenced, the explicit `throw` in `getRepeatedRank`,
  `pairs[1]` out of range in `getTwoPairRanks`) is modelled by `Option`,
  with `none` standing for the exception; the exception propagates through
  `findBestHand` via the `Option` monad.
- `new Set(xs).size` is modelled as `xs.dedup.length`; JavaScript object
  key-enumeration order differs from `List.dedup` order (integer-like keys
  come first), but every consumer either sorts the resulting counts or
  selects an element unique in it, so the two enumerations are
  interchangeable.
- JavaScript's in-place `sort` with a numeric comparator is modelled as
  `List.insertionSort`; on lists of numbers any sorting algorithm produces
  the same list.
- The per-card `id` string produced by `createCard` is kept in the `Card`
  structure so that identity-independence of the evaluator is a provable
  statement rather than a typing accident.
-/

set_option maxHeartbeats 1000000

namespace HandReadings

/-- `Suit` from `Card.ts`. -/
inductive Suit : Type
  | hearts
  | diamonds
  | clubs
  | spades
deriving DecidableEq, Repr

/-- `Rank` from `Card.ts`. -/
inductive Rank : Type
  | two | three | four | five | six | seven | eight | nine | ten
  | jack | queen | king | ace
deriving DecidableEq, Repr, Fintype

/-- `Card` from `Card.ts`: an opaque per-instance `id` plus suit and rank. -/
structure Card where
  id : String
  suit : Suit
  rank : Rank
deriving DecidableEq, Repr

/-- `rankToValue` from `Card.ts` (high value, Ace = 14). -/
def rankToValue : Rank → ℕ
  | .two => 2
  | .three => 3
  | .four => 4
  | .five => 5
  | .six => 6
  | .seven => 7
  | .eight => 8
  | .nine => 9
  | .ten => 10
  | .jack => 11
  | .queen => 12
  | .king => 13
  | .ace => 14

/-- `rankToLowValue` from `Card.ts` (Ace = 1, otherwise the high value). -/
def rankToLowValue (rank : Rank) : ℕ :=
  if rank = .ace then 1 else rankToValue rank

/-- `HandRank` enum from the poker types module, with its numeric order. -/
inductive HandRank : Type
  | highCard | onePair | twoPair | threeOfAKind | straight
  | flush | fullHouse | fourOfAKind | straightFlush | royalFlush
deriving DecidableEq, Repr

/-- The numeric value of the `HandRank` enum member (0..9). -/
def HandRank.toNat : HandRank → ℕ
  | .highCard => 0
  | .onePair => 1
  | .twoPair => 2
  | .threeOfAKind => 3
  | .straight => 4
  | .flush => 5
  | .fullHouse => 6
  | .fourOfAKind => 7
  | .straightFlush => 8
  | .royalFlush => 9

/-- `HandEvaluation` interface: best high hand, its rank, and the best
qualifying low hand (`null` modelled as `none`). -/
structure HandEvaluation where
  bestHighHand : List Card
  bestHighRank : HandRank
  bestLowHand : Option (List Card)
deriving DecidableEq, Repr

/-- `combinations(items, k)` from the evaluator: all k-element subsets of a
list, in the source's enumeration order (`k <= 0` gives one empty subset,
`k > length` gives none, `k = length` gives the whole list). The source's
loop over head positions `i = 0 .. length - k` is expressed recursively:
the `i = 0` group is `(combinations xs k).map (x :: ·)` (head `items[0]`,
sub-combinations of the tail), and the groups for `i ≥ 1` are exactly the
loop `combinations xs (k + 1)` runs over the tail's head positions, in the
same order. -/
def combinations {α : Type} : List α → ℕ → List (List α)
  | _, 0 => [[]]
  | [], _ + 1 => []
  | x :: xs, k + 1 =>
    if k + 1 > (x :: xs).length then []
    else if k + 1 = (x :: xs).length then [x :: xs]
    else ((combinations xs k).map (fun sub => x :: sub)) ++ combinations xs (k + 1)

/-- `isQualifyingLow`: all five cards have low value at most 8 and the five
ranks are pairwise distinct. -/
def isQualifyingLow (fiveCards : List Card) : Bool :=
  let lowCards := fiveCards.filter (fun card => rankToLowValue card.rank ≤ 8)
  if lowCards.length ≠ 5 then false
  else (fiveCards.map (fun card => card.rank)).dedup.length == 5

/-- The element-by-element loop shared by the low comparison: smaller value
at the first differing position wins (result `-1`). -/
def lexCmpAsc : List ℕ → List ℕ → Int
  | x :: xs, y :: ys =>
    if x < y then -1 else if x > y then 1 else lexCmpAsc xs ys
  | _, _ => 0

/-- The element-by-element loop shared by the high comparisons: larger value
at the first differing position wins (result `-1`). -/
def lexCmpDesc : List ℕ → List ℕ → Int
  | x :: xs, y :: ys =>
    if x > y then -1 else if x < y then 1 else lexCmpDesc xs ys
  | _, _ => 0

/-- `compareLowHands`: low values sorted descending, compared
lexicographically; the lower hand wins. -/
def compareLowHands (hand1 hand2 : List Card) : Int :=
  let values1 := (hand1.map (fun card => rankToLowValue card.rank)).insertionSort (· ≥ ·)
  let values2 := (hand2.map (fun card => rankToLowValue card.rank)).insertionSort (· ≥ ·)
  lexCmpAsc values1 values2

/-- `areLowHandsEqual`. -/
def areLowHandsEqual (hand1 hand2 : List Card) : Bool :=
  compareLowHands hand1 hand2 == 0

/-- The consecutiveness loop of `checkStraight`: every adjacent difference
(computed in `ℤ`, as JavaScript does) equals 1. -/
def isConsecutive : List ℕ → Bool
  | v1 :: v2 :: rest => ((v2 : ℤ) - (v1 : ℤ) == 1) && isConsecutive (v2 :: rest)
  | _ => true

/-- `checkStraight`: sort high values ascending and test consecutiveness;
otherwise, if an Ace is present, remap it to 1, re-sort, and accept exactly
the wheel `[1,2,3,4,5]`. -/
def checkStraight (ranks : List Rank) : Bool :=
  let values := (ranks.map rankToValue).insertionSort (· ≤ ·)
  if isConsecutive values then true
  else if values.contains 14 then
    let wheelValues := (values.map (fun v => if v = 14 then 1 else v)).insertionSort (· ≤ ·)
    isConsecutive wheelValues && wheelValues == [1, 2, 3, 4, 5]
  else false

/-- `isRoyalFlush` (rank test only): five distinct ranks, all of
A, K, Q, J, 10 present. -/
def isRoyalRanks (ranks : List Rank) : Bool :=
  ranks.dedup.length == 5 &&
    [Rank.ace, Rank.king, Rank.queen, Rank.jack, Rank.ten].all (fun r => ranks.contains r)

/-- The descending count-shape of a rank list: the count of each distinct
rank, sorted descending (e.g. `[4,1]`, `[3,2]`, `[2,2,1]`). -/
def countShape (ranks : List Rank) : List ℕ :=
  (ranks.dedup.map (fun r => ranks.count r)).insertionSort (· ≥ ·)

/-- `evaluateHand`: classify a 5-card hand by the source's first-match
precedence. -/
def evaluateHand (cards : List Card) : HandRank :=
  let ranks := cards.map (fun card => card.rank)
  let suits := cards.map (fun card => card.suit)
  let isFlush := suits.dedup.length == 1
  let isStraight := checkStraight ranks
  let counts := countShape ranks
  if isFlush && isStraight && isRoyalRanks ranks then .royalFlush
  else if isFlush && isStraight then .straightFlush
  else if counts == [4, 1] then .fourOfAKind
  else if counts == [3, 2] then .fullHouse
  else if isFlush then .flush
  else if isStraight then .straight
  else if counts == [3, 1, 1] then .threeOfAKind
  else if counts == [2, 2, 1] then .twoPair
  else if counts == [2, 1, 1, 1] then .onePair
  else .highCard

/-- `getHighCard`: `reduce` keeping the card of strictly larger value;
`none` models the exception `reduce` raises on an empty array. -/
def getHighCard : List Card → Option Card
  | [] => none
  | c :: cs =>
    some (cs.foldl
      (fun best card => if rankToValue card.rank > rankToValue best.rank then card else best) c)

/-- `getStraightHighCard`: for the wheel (sorted values `[2,3,4,5,14]`) the
rank-5 card, otherwise the highest card; `none` models the runtime failure
when the lookup misses. -/
def getStraightHighCard (cards : List Card) : Option Card :=
  if (cards.map (fun card => rankToValue card.rank)).insertionSort (· ≤ ·) = [2, 3, 4, 5, 14] then
    cards.find? (fun card => card.rank == Rank.five)
  else getHighCard cards

/-- `getRepeatedRank`: the first distinct rank whose count equals `count`;
`none` models the `throw new Error` when there is none. -/
def getRepeatedRank (cards : List Card) (count : ℕ) : Option Rank :=
  let ranks := cards.map (fun card => card.rank)
  ranks.dedup.find? (fun r => ranks.count r == count)

/-- `getTwoPairRanks`: the ranks occurring exactly twice, sorted by
descending value; `none` models the runtime failure when fewer than two
pair ranks exist (`pairs[0]`/`pairs[1]` undefined). -/
def getTwoPairRanks (cards : List Card) : Option (Rank × Rank) :=
  let ranks := cards.map (fun card => card.rank)
  let pairs := (ranks.dedup.filter (fun r => ranks.count r == 2)).insertionSort
    (fun a b => rankToValue a ≥ rankToValue b)
  match pairs with
  | p0 :: p1 :: _ => some (p0, p1)
  | _ => none

/-- `a > b → -1, a < b → 1, else 0` on ℕ, as in each high-hand tie-break. -/
def cmpDesc (a b : ℕ) : Int :=
  if a > b then -1 else if a < b then 1 else 0

/-- The same comparison on `WithBot ℕ`, used for `Math.max` kickers (`⊥`
plays the role of `-Infinity`). -/
def cmpW (a b : WithBot ℕ) : Int :=
  if a > b then -1 else if a < b then 1 else 0

/-- `Math.max(...hand.filter(p).map(rankToValue))`, with `⊥` for the empty
case. -/
def kickerMax (hand : List Card) (p : Card → Bool) : WithBot ℕ :=
  ((hand.filter p).map (fun card => rankToValue card.rank)).maximum

/-- All five card values sorted descending, as in the Flush/HighCard
branches. -/
def descValues (hand : List Card) : List ℕ :=
  (hand.map (fun card => rankToValue card.rank)).insertionSort (· ≥ ·)

/-- The kickers of a hand after removing rank `r`, sorted descending. -/
def kickersDesc (hand : List Card) (r : Rank) : List ℕ :=
  ((hand.filter (fun card => card.rank != r)).map (fun card => rankToValue card.rank)).insertionSort
    (· ≥ ·)

/-- `compareHighHands`: category-specific tie-break of two hands of the same
`HandRank`. `none` models a thrown exception inside one of the helper
lookups. -/
def compareHighHands (hand1 hand2 : List Card) (rank : HandRank) : Option Int :=
  match rank with
  | .royalFlush => some 0
  | .straightFlush | .straight =>
    match getStraightHighCard hand1, getStraightHighCard hand2 with
    | some high1, some high2 =>
      some (cmpDesc (rankToValue high1.rank) (rankToValue high2.rank))
    | _, _ => none
  | .fourOfAKind =>
    match getRepeatedRank hand1 4, getRepeatedRank hand2 4 with
    | some quad1, some quad2 =>
      if rankToValue quad1 > rankToValue quad2 then some (-1)
      else if rankToValue quad1 < rankToValue quad2 then some 1
      else
        some (cmpW (kickerMax hand1 (fun card => card.rank != quad1))
                   (kickerMax hand2 (fun card => card.rank != quad2)))
    | _, _ => none
  | .fullHouse =>
    match getRepeatedRank hand1 3, getRepeatedRank hand2 3 with
    | some trip1, some trip2 =>
      if rankToValue trip1 > rankToValue trip2 then some (-1)
      else if rankToValue trip1 < rankToValue trip2 then some 1
      else
        match getRepeatedRank hand1 2, getRepeatedRank hand2 2 with
        | some pair1, some pair2 => some (cmpDesc (rankToValue pair1) (rankToValue pair2))
        | _, _ => none
    | _, _ => none
  | .flush | .highCard =>
    some (lexCmpDesc (descValues hand1) (descValues hand2))
  | .threeOfAKind =>
    match getRepeatedRank hand1 3, getRepeatedRank hand2 3 with
    | some trip1, some trip2 =>
      if rankToValue trip1 > rankToValue trip2 then some (-1)
      else if rankToValue trip1 < rankToValue trip2 then some 1
      else some (lexCmpDesc (kickersDesc hand1 trip1) (kickersDesc hand2 trip2))
    | _, _ => none
  | .twoPair =>
    match getTwoPairRanks hand1, getTwoPairRanks hand2 with
    | some pairs1, some pairs2 =>
      if rankToValue pairs1.1 > rankToValue pairs2.1 then some (-1)
      else if rankToValue pairs1.1 < rankToValue pairs2.1 then some 1
      else if rankToValue pairs1.2 > rankToValue pairs2.2 then some (-1)
      else if rankToValue pairs1.2 < rankToValue pairs2.2 then some 1
      else
        some (cmpW
          (kickerMax hand1 (fun card => card.rank != pairs1.1 && card.rank != pairs1.2))
          (kickerMax hand2 (fun card => card.rank != pairs2.1 && card.rank != pairs2.2)))
    | _, _ => none
  | .onePair =>
    match getRepeatedRank hand1 2, getRepeatedRank hand2 2 with
    | some pair1, some pair2 =>
      if rankToValue pair1 > rankToValue pair2 then some (-1)
      else if rankToValue pair1 < rankToValue pair2 then some 1
      else some (lexCmpDesc (kickersDesc hand1 pair1) (kickersDesc hand2 pair2))
    | _, _ => none

/-- The candidate (hole, board) splits generated by `findBestHand`:
`cardCount = 2` tries 1+4 then 2+3; any other card count uses exactly 2+3. -/
def allCombinations (holeCards communityCards : List Card) (cardCount : ℕ) :
    List (List Card × List Card) :=
  if cardCount = 2 then
    ((combinations holeCards 1).flatMap fun holeCombo =>
      (combinations communityCards 4).map fun boardCombo => (holeCombo, boardCombo)) ++
    ((combinations holeCards 2).flatMap fun holeCombo =>
      (combinations communityCards 3).map fun boardCombo => (holeCombo, boardCombo))
  else
    (combinations holeCards 2).flatMap fun holeCombo =>
      (combinations communityCards 3).map fun boardCombo => (holeCombo, boardCombo)

/-- The high-hand half of one `findBestHand` loop iteration: adopt the
first candidate, a strictly higher rank, or a same-rank candidate that the
comparator prefers; `none` models an exception from the comparator. -/
def findBestHighStep (acc : HandEvaluation) (fiveCardHand : List Card) : Option HandEvaluation :=
  let highRank := evaluateHand fiveCardHand
  if acc.bestHighHand.length = 0 then
    some { acc with bestHighHand := fiveCardHand, bestHighRank := highRank }
  else if highRank.toNat > acc.bestHighRank.toNat then
    some { acc with bestHighHand := fiveCardHand, bestHighRank := highRank }
  else if highRank = acc.bestHighRank then
    match compareHighHands fiveCardHand acc.bestHighHand highRank with
    | some comparison =>
      if comparison < 0 then some { acc with bestHighHand := fiveCardHand } else some acc
    | none => none
  else some acc

/-- The low-hand half of one `findBestHand` loop iteration: adopt a
qualifying candidate when there is no running low or when it compares
strictly lower. -/
def findBestLowStep (acc1 : HandEvaluation) (fiveCardHand : List Card) : HandEvaluation :=
  if isQualifyingLow fiveCardHand then
    match acc1.bestLowHand with
    | none => { acc1 with bestLowHand := some fiveCardHand }
    | some bestLow =>
      if compareLowHands fiveCardHand bestLow < 0 then
        { acc1 with bestLowHand := some fiveCardHand }
      else acc1
  else acc1

/-- One iteration of the `findBestHand` loop on a candidate 5-card hand:
the high-hand update followed by the low-hand update. -/
def findBestStep (acc : HandEvaluation) (fiveCardHand : List Card) : Option HandEvaluation :=
  (findBestHighStep acc fiveCardHand).map (fun acc1 => findBestLowStep acc1 fiveCardHand)

/-- `findBestHand`: fold the loop body over every candidate split, starting
from the degenerate accumulator (`[]`, HighCard, no low). `none` models an
exception escaping the loop. -/
def findBestHand (holeCards communityCards : List Card) (cardCount : ℕ) :
    Option HandEvaluation :=
  (allCombinations holeCards communityCards cardCount).foldlM
    (fun acc combo => findBestStep acc (combo.1 ++ combo.2))
    { bestHighHand := [], bestHighRank := .highCard, bestLowHand := none }

/-- `getLowHandDescription`: "No low" without a qualifying low, otherwise
the low values sorted descending joined as a digit string. -/
def getLowHandDescription (hand communityCards : List Card) (cardCount : ℕ) : Option String :=
  (findBestHand hand communityCards cardCount).map fun evaluation =>
    match evaluation.bestLowHand with
    | none => "No low"
    | some low =>
      let values := (low.map (fun card => rankToLowValue card.rank)).insertionSort (· ≥ ·)
      String.join (values.map toString)

/-! ## Concrete cards used by the example-level theorems -/

/-- A concrete card (the first argument plays the role of `createCard`'s
random id suffix). -/
def mkCard (i : String) (s : Suit) (r : Rank) : Card := ⟨i, s, r⟩

/-- Private cards of the spec §8 TwoFlexible example: 2♣ and 7♦. -/
def privC2 : List Card := [mkCard "p1" .clubs .two, mkCard "p2" .diamonds .seven]

/-- Community cards of the spec §8 TwoFlexible example: 3♠ 4♠ 5♠ 6♠ 9♥. -/
def commC2 : List Card :=
  [mkCard "c1" .spades .three, mkCard "c2" .spades .four, mkCard "c3" .spades .five,
   mkCard "c4" .spades .six, mkCard "c5" .hearts .nine]

/-- The hand `findBestHand` actually selects as best high on the §8
example: 7♦ with 3♠ 4♠ 5♠ 6♠, the straight to the seven. -/
def bestHighC2 : List Card :=
  [mkCard "p2" .diamonds .seven, mkCard "c1" .spades .three, mkCard "c2" .spades .four,
   mkCard "c3" .spades .five, mkCard "c4" .spades .six]

/-- The hand `findBestHand` actually selects as best low on the §8 example:
2♣ with 3♠ 4♠ 5♠ 6♠. -/
def bestLowC2 : List Card :=
  [mkCard "p1" .clubs .two, mkCard "c1" .spades .three, mkCard "c2" .spades .four,
   mkCard "c3" .spades .five, mkCard "c4" .spades .six]

/-- A malformed four-card input: 2♥ 3♥ 4♥ 5♥. -/
def mal4 : List Card :=
  [mkCard "m1" .hearts .two, mkCard "m2" .hearts .three, mkCard "m3" .hearts .four,
   mkCard "m4" .hearts .five]

/-- A five-card consecutive run with maximally mixed suits:
2♥ 3♦ 4♣ 5♠ 6♥. -/
def mixedRun : List Card :=
  [mkCard "x1" .hearts .two, mkCard "x2" .diamonds .three, mkCard "x3" .clubs .four,
   mkCard "x4" .spades .five, mkCard "x5" .hearts .six]

/-- The mixed-suit wheel A♠ 2♥ 3♦ 4♣ 5♠. -/
def wheelMixed : List Card :=
  [mkCard "w1" .spades .ace, mkCard "w2" .hearts .two, mkCard "w3" .diamonds .three,
   mkCard "w4" .clubs .four, mkCard "w5" .spades .five]

/-- A paired low candidate 7♥ 7♦ 3♣ 4♠ 5♥. -/
def pairedLow : List Card :=
  [mkCard "q1" .hearts .seven, mkCard "q2" .diamonds .seven, mkCard "q3" .clubs .three,
   mkCard "q4" .spades .four, mkCard "q5" .hearts .five]

/-- High-card witness hand A: A♠ K♥ Q♦ J♣ 9♥. -/
def hcHandA : List Card :=
  [mkCard "a1" .spades .ace, mkCard "a2" .hearts .king, mkCard "a3" .diamonds .queen,
   mkCard "a4" .clubs .jack, mkCard "a5" .hearts .nine]

/-- High-card witness hand B: A♦ K♣ Q♥ J♠ 8♦. -/
def hcHandB : List Card :=
  [mkCard "b1" .diamonds .ace, mkCard "b2" .clubs .king, mkCard "b3" .hearts .queen,
   mkCard "b4" .spades .jack, mkCard "b5" .diamonds .eight]

/-- High-card witness hand C: A♥ K♦ Q♠ J♥ 7♣. -/
def hcHandC : List Card :=
  [mkCard "d1" .hearts .ace, mkCard "d2" .diamonds .king, mkCard "d3" .spades .queen,
   mkCard "d4" .hearts .jack, mkCard "d5" .clubs .seven]

/-- Four aces with a king kicker. -/
def quadAces : List Card :=
  [mkCard "e1" .spades .ace, mkCard "e2" .hearts .ace, mkCard "e3" .diamonds .ace,
   mkCard "e4" .clubs .ace, mkCard "e5" .spades .king]

/-- Four kings with an ace kicker. -/
def quadKings : List Card :=
  [mkCard "f1" .spades .king, mkCard "f2" .hearts .king, mkCard "f3" .diamonds .king,
   mkCard "f4" .clubs .king, mkCard "f5" .spades .ace]

/-- A one-suit run 9♥ 10♥ J♥ Q♥ K♥ (straight flush, not royal). -/
def heartsRun : List Card :=
  [mkCard "g1" .hearts .nine, mkCard "g2" .hearts .ten, mkCard "g3" .hearts .jack,
   mkCard "g4" .hearts .queen, mkCard "g5" .hearts .king]

/-- A full house 8-8-8-3-3 with mixed suits. -/
def fullEights : List Card :=
  [mkCard "k1" .spades .eight, mkCard "k2" .hearts .eight, mkCard "k3" .diamonds .eight,
   mkCard "k4" .clubs .three, mkCard "k5" .spades .three]

/-- The same private cards as `privC2`, with different per-instance ids. -/
def privC2ids : List Card := [mkCard "zz1" .clubs .two, mkCard "zz2" .diamonds .seven]

/-- The same community cards as `commC2`, with different per-instance ids. -/
def commC2ids : List Card :=
  [mkCard "zz3" .spades .three, mkCard "zz4" .spades .four, mkCard "zz5" .spades .five,
   mkCard "zz6" .spades .six, mkCard "zz7" .hearts .nine]

/-! ## Comparison keys, wheel predicate and spec-side classifier -/

/-- The lexicographic comparison key `compareHighHands` effectively uses for
a hand in a given category, built from the same helper extractors (with
default values on the failure paths, which the key lemma's hypotheses rule
out). -/
def handKey (hand : List Card) : HandRank → List ℕ
  | .royalFlush => []
  | .straightFlush | .straight =>
    match getStraightHighCard hand with
    | some hc => [rankToValue hc.rank]
    | none => []
  | .flush | .highCard => descValues hand
  | .fourOfAKind =>
    match getRepeatedRank hand 4 with
    | some quad =>
      [rankToValue quad, (kickerMax hand (fun card => card.rank != quad)).unbot' 0]
    | none => []
  | .fullHouse =>
    match getRepeatedRank hand 3, getRepeatedRank hand 2 with
    | some trip, some pair => [rankToValue trip, rankToValue pair]
    | _, _ => []
  | .threeOfAKind =>
    match getRepeatedRank hand 3 with
    | some trip => rankToValue trip :: kickersDesc hand trip
    | none => []
  | .twoPair =>
    match getTwoPairRanks hand with
    | some pr =>
      [rankToValue pr.1, rankToValue pr.2,
       (kickerMax hand (fun card => card.rank != pr.1 && card.rank != pr.2)).unbot' 0]
    | none => []
  | .onePair =>
    match getRepeatedRank hand 2 with
    | some pair => rankToValue pair :: kickersDesc hand pair
    | none => []

/-- The wheel test `getStraightHighCard` performs: the sorted high values
are exactly `[2, 3, 4, 5, 14]`. -/
def isWheel (hand : List Card) : Prop :=
  (hand.map (fun card => rankToValue card.rank)).insertionSort (· ≤ ·) = [2, 3, 4, 5, 14]

instance (hand : List Card) : Decidable (isWheel hand) := by
  unfold isWheel
  infer_instance

/-- The comparison value of a straight per the spec: 5 for the wheel,
otherwise the straight's highest card value. -/
def straightCompValue (hand : List Card) : ℕ :=
  if isWheel hand then 5
  else ((hand.map (fun card => rankToValue card.rank)).maximum).unbot' 0

/-- Strict consecutiveness, +1 at each step (spec §4.3 step 2 wording). -/
def StepOne : List ℕ → Prop
  | a :: b :: rest => b = a + 1 ∧ StepOne (b :: rest)
  | _ => True

def stepOneDec : (l : List ℕ) → Decidable (StepOne l)
  | [] => isTrue trivial
  | [_] => isTrue trivial
  | a :: b :: rest =>
    letI := stepOneDec (b :: rest)
    decidable_of_iff (b = a + 1 ∧ StepOne (b :: rest)) Iff.rfl

instance (l : List ℕ) : Decidable (StepOne l) := stepOneDec l

/-- Spec §4.3 step 1: all five suits identical. -/
def spec_isFlush (hand : List Card) : Prop :=
  ∀ c1 ∈ hand, ∀ c2 ∈ hand, c1.suit = c2.suit

instance (hand : List Card) : Decidable (spec_isFlush hand) := by
  unfold spec_isFlush
  infer_instance

/-- Spec §4.3 step 2: sorted high values consecutive, or exactly the wheel
value set {14, 2, 3, 4, 5} (Ace remapped to 1 — the only low-Ace case). -/
def spec_isStraight (hand : List Card) : Prop :=
  StepOne ((hand.map (fun card => rankToValue card.rank)).insertionSort (· ≤ ·)) ∨
  List.Perm (hand.map (fun card => rankToValue card.rank)) [14, 2, 3, 4, 5]

instance (hand : List Card) : Decidable (spec_isStraight hand) := by
  unfold spec_isStraight
  infer_instance

/-- Spec §4.3 step 4 (RoyalFlush clause): the five ranks are exactly
{A, K, Q, J, 10}. -/
def spec_isRoyal (hand : List Card) : Prop :=
  (hand.map (fun card => card.rank)).toFinset =
    {Rank.ace, Rank.king, Rank.queen, Rank.jack, Rank.ten}

instance (hand : List Card) : Decidable (spec_isRoyal hand) := by
  unfold spec_isRoyal
  infer_instance

/-- The classifier exactly as spec §4.3 words it: first-match precedence
over `spec_isFlush`, `spec_isStraight`, `spec_isRoyal` and the descending
count-shape. -/
def spec_classify (hand : List Card) : HandRank :=
  let shape := countShape (hand.map (fun card => card.rank))
  if spec_isFlush hand ∧ spec_isStraight hand ∧ spec_isRoyal hand then .royalFlush
  else if spec_isFlush hand ∧ spec_isStraight hand then .straightFlush
  else if shape = [4, 1] then .fourOfAKind
  else if shape = [3, 2] then .fullHouse
  else if spec_isFlush hand then .flush
  else if spec_isStraight hand then .straight
  else if shape = [3, 1, 1] then .threeOfAKind
  else if shape = [2, 2, 1] then .twoPair
  else if shape = [2, 1, 1, 1] then .onePair
  else .highCard

/-- The evaluation-relevant content of a card: its (suit, rank) pair,
forgetting the per-instance id. -/
def srOf (card : Card) : Suit × Rank := (card.suit, card.rank)

/-- The by-value content of an Evaluation: category, the (suit, rank)
sequence of the best high hand, and the (suit, rank) sequence of the best
low hand (or its absence). -/
def evalSR (e : HandEvaluation) : HandRank × List (Suit × Rank) × Option (List (Suit × Rank)) :=
  (e.bestHighRank, e.bestHighHand.map srOf, e.bestLowHand.map (fun l => l.map srOf))

/-- Two card lists with pointwise equal (suit, rank) content (ids free). -/
def MapSR (h h' : List Card) : Prop := h.map srOf = h'.map srOf

/-- `MapSR` on both components of a (hole, board) split. -/
def PairSR (p q : List Card × List Card) : Prop := MapSR p.1 q.1 ∧ MapSR p.2 q.2

/-! ## Basic facts about the card model and the comparison loops -/

theorem two_le_rankToValue (r : Rank) : 2 ≤ rankToValue r := by
  cases r <;> decide

theorem rankToValue_inj : ∀ {r s : Rank}, rankToValue r = rankToValue s → r = s := by
  decide

theorem lexCmpDesc_self : ∀ l : List ℕ, lexCmpDesc l l = 0
  | [] => rfl
  | x :: xs => by simp [lexCmpDesc, lexCmpDesc_self xs]

theorem lexCmpDesc_trans :
    ∀ (a b c : List ℕ), lexCmpDesc a b = -1 → lexCmpDesc b c = -1 → lexCmpDesc a c = -1
  | [], _, _, hab, _ => by simp [lexCmpDesc] at hab
  | _ :: _, [], _, hab, _ => by simp [lexCmpDesc] at hab
  | _ :: _, _ :: _, [], _, hbc => by simp [lexCmpDesc] at hbc
  | x :: xs, y :: ys, z :: zs, hab, hbc => by
    simp only [lexCmpDesc] at hab hbc ⊢
    rcases lt_trichotomy y x with hyx | hyx | hyx
    · rcases lt_trichotomy z y with hzy | hzy | hzy
      · rw [if_pos (hzy.trans hyx)]
      · subst hzy; rw [if_pos hyx]
      · rw [if_neg (asymm hzy), if_pos hzy] at hbc
        exact absurd hbc (by decide)
    · subst hyx
      rcases lt_trichotomy z y with hzy | hzy | hzy
      · rw [if_pos hzy]
      · subst hzy
        rw [if_neg (lt_irrefl _), if_neg (lt_irrefl _)] at hab hbc ⊢
        exact lexCmpDesc_trans xs ys zs hab hbc
      · rw [if_neg (asymm hzy), if_pos hzy] at hbc
        exact absurd hbc (by decide)
    · rw [if_neg (asymm hyx), if_pos hyx] at hab
      exact absurd hab (by decide)

theorem lexCmpDesc_cases :
    ∀ (a b : List ℕ), lexCmpDesc a b = -1 ∨ lexCmpDesc a b = 0 ∨ lexCmpDesc a b = 1
  | [], [] => by simp [lexCmpDesc]
  | [], _ :: _ => by simp [lexCmpDesc]
  | _ :: _, [] => by simp [lexCmpDesc]
  | x :: xs, y :: ys => by
    simp only [lexCmpDesc]
    rcases lt_trichotomy y x with h | h | h
    · rw [if_pos h]; exact Or.inl rfl
    · subst h
      rw [if_neg (lt_irrefl _), if_neg (lt_irrefl _)]
      exact lexCmpDesc_cases xs ys
    · rw [if_neg (asymm h), if_pos h]
      exact Or.inr (Or.inr rfl)

theorem cmpDesc_self (a : ℕ) : cmpDesc a a = 0 := by
  simp [cmpDesc]

theorem cmpW_coe (x y : ℕ) : cmpW (WithBot.some x) (WithBot.some y) = cmpDesc x y := by
  unfold cmpW cmpDesc
  simp only [gt_iff_lt]
  by_cases h1 : y < x
  · rw [if_pos (WithBot.coe_lt_coe.mpr h1), if_pos h1]
  · rw [if_neg (fun hc => h1 (WithBot.coe_lt_coe.mp hc)), if_neg h1]
    by_cases h2 : x < y
    · rw [if_pos (WithBot.coe_lt_coe.mpr h2), if_pos h2]
    · rw [if_neg (fun hc => h2 (WithBot.coe_lt_coe.mp hc)), if_neg h2]

theorem length_filter_eq_iff {α : Type} (l : List α) (p : α → Bool) :
    (l.filter p).length = l.length ↔ ∀ a ∈ l, p a := by
  constructor
  · intro h
    have hs : (l.filter p).Sublist l := List.filter_sublist l
    exact List.filter_eq_self.mp (hs.eq_of_length h)
  · intro h
    rw [List.filter_eq_self.mpr h]

theorem dedup_length_eq_iff {α : Type} [DecidableEq α] (l : List α) :
    l.dedup.length = l.length ↔ l.Nodup := by
  constructor
  · intro h
    have hd : l.dedup = l := (l.dedup_sublist).eq_of_length h
    rw [← hd]
    exact l.nodup_dedup
  · intro h
    rw [List.dedup_eq_self.mpr h]

/-! ## C1, C2, C8: example-level theorems -/

/-- C1: with insufficient private or community cards (empty inputs, one
hole card and a two-card board under the TwoFlexible rule, or a single
hole card under the fixed 2+3 rule), `findBestHand` raises no error and
returns the degenerate Evaluation (empty best hand, HighCard, no low) —
contradicting the spec's requirement of a checked, descriptive error; and
on that degenerate result the description formatter's high-card lookup has
nothing to return (`getHighCard` of the empty best hand fails). -/
theorem findBestHand_insufficient_degenerate :
    findBestHand ([] : List Card) [] 2 = some ⟨[], .highCard, none⟩ ∧
    findBestHand [mkCard "h1" .hearts .ace]
      [mkCard "b1" .clubs .two, mkCard "b2" .clubs .three] 2 = some ⟨[], .highCard, none⟩ ∧
    findBestHand [mkCard "h1" .hearts .ace]
      [mkCard "b1" .clubs .two, mkCard "b2" .clubs .three, mkCard "b3" .clubs .four,
       mkCard "b4" .clubs .five, mkCard "b5" .clubs .six] 4 = some ⟨[], .highCard, none⟩ ∧
    (findBestHand ([] : List Card) [] 2).map (fun e => getHighCard e.bestHighHand)
      = some none := by
  decide

/-- C2 (counterexample): on the §8 TwoFlexible example the engine's best
low digit string is not "76542", and its best high hand is not the
2-3-4-5-6 straight (its sorted values are not `[2,3,4,5,6]`). -/
theorem findBestHand_twoFlexible_example_refutes :
    getLowHandDescription privC2 commC2 2 ≠ some "76542" ∧
    (findBestHand privC2 commC2 2).map
        (fun e => (e.bestHighHand.map (fun card => rankToValue card.rank)).insertionSort (· ≤ ·))
      ≠ some [2, 3, 4, 5, 6] := by
  decide

/-- C2 (amended): on the §8 TwoFlexible example — private {2♣, 7♦},
community {3♠, 4♠, 5♠, 6♠, 9♥} — `findBestHand` enumerates both the 1+4
and 2+3 splits and returns, without error, the straight to the seven
(7♦ 3♠ 4♠ 5♠ 6♠, category Straight, found in the 1-private+4-community
block) as best high, and 2♣ 3♠ 4♠ 5♠ 6♠ as best low, whose low
description is the digit string "65432". -/
theorem findBestHand_twoFlexible_example :
    findBestHand privC2 commC2 2 =
      some ⟨bestHighC2, .straight, some bestLowC2⟩ ∧
    getLowHandDescription privC2 commC2 2 = some "65432" := by
  decide

/-- C8 (counterexample): a malformed four-card input is not rejected by the
Classifier: `evaluateHand` silently classifies 2♥ 3♥ 4♥ 5♥ as an ordinary
category (StraightFlush) instead of failing. -/
theorem evaluateHand_malformed_classified :
    mal4.length ≠ 5 ∧ evaluateHand mal4 = .straightFlush := by
  decide

/-- C8 (amended): the Classifier and the High-Hand Comparator perform no
hand-size validation; malformed hands are silently classified and
compared — the empty hand classifies as Straight, the four-card run
2♥ 3♥ 4♥ 5♥ classifies as StraightFlush, and the comparator happily
compares both. -/
theorem malformed_hands_not_rejected :
    evaluateHand ([] : List Card) = .straight ∧
    compareHighHands [] [] .highCard = some 0 ∧
    evaluateHand mal4 = .straightFlush ∧
    compareHighHands mal4 mal4 .straightFlush = some 0 := by
  decide

/-! ## C6: the low-hand qualifier -/

/-- C6: for every 5-card hand, `isQualifyingLow` holds iff every card's low
value (Ace = 1) is at most 8 and the five ranks are pairwise distinct; the
right-hand side mentions no suit, so suits play no role. -/
theorem isQualifyingLow_iff (hand : List Card) (hlen : hand.length = 5) :
    isQualifyingLow hand = true ↔
      (∀ card ∈ hand, rankToLowValue card.rank ≤ 8) ∧
      (hand.map (fun card => card.rank)).Nodup := by
  unfold isQualifyingLow
  by_cases hf : (hand.filter (fun card => decide (rankToLowValue card.rank ≤ 8))).length = 5
  · rw [if_neg (fun hne => hne hf)]
    have h8 : ∀ card ∈ hand, rankToLowValue card.rank ≤ 8 := by
      intro card hcard
      have hall := (length_filter_eq_iff hand
        (fun card => decide (rankToLowValue card.rank ≤ 8))).mp (by rw [hf, hlen])
      simpa using hall card hcard
    have hmaplen : (hand.map (fun card => card.rank)).length = 5 := by
      rw [List.length_map, hlen]
    constructor
    · intro hd
      refine ⟨h8, ?_⟩
      have : (hand.map (fun card => card.rank)).dedup.length =
          (hand.map (fun card => card.rank)).length := by
        rw [hmaplen]
        simpa using hd
      exact (dedup_length_eq_iff _).mp this
    · intro h
      have : (hand.map (fun card => card.rank)).dedup.length =
          (hand.map (fun card => card.rank)).length := (dedup_length_eq_iff _).mpr h.2
      rw [hmaplen] at this
      simpa using this
  · rw [if_pos hf]
    constructor
    · intro h; exact absurd h (by simp)
    · rintro ⟨h8, -⟩
      exfalso
      apply hf
      rw [(length_filter_eq_iff hand _).mpr (fun card hcard => by simpa using h8 card hcard)]
      exact hlen

/-- C6 witness: the mixed-suit wheel qualifies for low, the paired hand
7♥ 7♦ 3♣ 4♠ 5♥ does not. -/
theorem isQualifyingLow_iff_witness :
    isQualifyingLow wheelMixed = true ∧ isQualifyingLow pairedLow = false := by
  constructor
  · exact (isQualifyingLow_iff wheelMixed (by decide)).mpr (by decide)
  · have h := isQualifyingLow_iff pairedLow (by decide)
    cases hq : isQualifyingLow pairedLow
    · rfl
    · exact absurd (h.mp hq) (by decide)

/-- C5 (counterexample): a strictly consecutive run with mixed (maximally
distinct) suits classifies as Straight, not StraightFlush — so no
non-vacuous reading of "all distinct suits → StraightFlush" holds; the
code requires all suits identical. -/
theorem mixed_suit_straight_not_straightFlush :
    (mixedRun.map (fun card => card.suit)).dedup.length ≠ 1 ∧
    evaluateHand mixedRun = .straight ∧
    evaluateHand mixedRun ≠ .straightFlush := by
  decide

/-! ## Structure extracted from the count-shape -/

theorem countShape_mem {rs : List Rank} {n : ℕ} (hn : n ∈ countShape rs) :
    ∃ r ∈ rs.dedup, rs.count r = n := by
  unfold countShape at hn
  have hmem : n ∈ rs.dedup.map (fun r => rs.count r) :=
    (List.perm_insertionSort _ _).mem_iff.mp hn
  obtain ⟨r, hr, hc⟩ := List.mem_map.mp hmem
  exact ⟨r, hr, hc⟩

theorem getRepeatedRank_of_shape {hand : List Card} {S : List ℕ} {n : ℕ}
    (hS : countShape (hand.map (fun card => card.rank)) = S) (hn : n ∈ S) :
    ∃ q, getRepeatedRank hand n = some q ∧
      (hand.map (fun card => card.rank)).count q = n := by
  obtain ⟨r, hr, hc⟩ := countShape_mem (hS ▸ hn)
  unfold getRepeatedRank
  have hsome : ((hand.map (fun card => card.rank)).dedup.find?
      (fun r => (hand.map (fun card => card.rank)).count r == n)).isSome := by
    rw [List.find?_isSome]
    exact ⟨r, hr, by simpa using hc⟩
  obtain ⟨q, hq⟩ := Option.isSome_iff_exists.mp hsome
  refine ⟨q, hq, ?_⟩
  simpa using List.find?_some hq

theorem exists_rank_ne {hand : List Card} {q : Rank}
    (h : (hand.map (fun card => card.rank)).count q ≠ hand.length) :
    ∃ card ∈ hand, (card.rank != q) = true := by
  by_contra hall
  push_neg at hall
  apply h
  have hq : ∀ b ∈ hand.map (fun card => card.rank), q = b := by
    intro b hb
    obtain ⟨card, hcard, rfl⟩ := List.mem_map.mp hb
    have hne := hall card hcard
    simp only [bne_iff_ne, ne_eq, Decidable.not_not] at hne
    exact hne.symm
  rw [List.count_eq_length.mpr hq, List.length_map]

theorem kickerMax_isSome {hand : List Card} {p : Card → Bool}
    (hex : ∃ card ∈ hand, p card = true) :
    ∃ k : ℕ, kickerMax hand p = WithBot.some k := by
  obtain ⟨card, hcard, hp⟩ := hex
  have hmem : rankToValue card.rank ∈ (hand.filter p).map (fun card => rankToValue card.rank) :=
    List.mem_map_of_mem _ (List.mem_filter.mpr ⟨hcard, hp⟩)
  have hne : (hand.filter p).map (fun card => rankToValue card.rank) ≠ [] :=
    List.ne_nil_of_mem hmem
  unfold kickerMax
  have hb : ((hand.filter p).map (fun card => rankToValue card.rank)).maximum ≠ ⊥ :=
    fun hbot => hne (List.maximum_eq_bot.mp hbot)
  obtain ⟨k, hk⟩ := WithBot.ne_bot_iff_exists.mp hb
  exact ⟨k, hk.symm⟩

theorem getStraightHighCard_isSome {hand : List Card} (h : hand ≠ []) :
    ∃ hc, getStraightHighCard hand = some hc := by
  unfold getStraightHighCard
  split_ifs with hw
  · have h5sorted : (5 : ℕ) ∈ (hand.map (fun card => rankToValue card.rank)).insertionSort
        (· ≤ ·) := by
      rw [hw]; decide
    have h5 : (5 : ℕ) ∈ hand.map (fun card => rankToValue card.rank) :=
      (List.perm_insertionSort _ _).mem_iff.mp h5sorted
    obtain ⟨card, hcard, hval⟩ := List.mem_map.mp h5
    have hrank : card.rank = Rank.five := rankToValue_inj (by simpa [rankToValue] using hval)
    have hsome : (hand.find? (fun card => card.rank == Rank.five)).isSome := by
      rw [List.find?_isSome]
      exact ⟨card, hcard, by simp [hrank]⟩
    exact Option.isSome_iff_exists.mp hsome
  · cases hand with
    | nil => exact absurd rfl h
    | cons c cs => exact ⟨_, rfl⟩

/-! ## Inversion of the classifier's decision chain -/

theorem eval_shape_fourOfAKind {hand : List Card} (h : evaluateHand hand = .fourOfAKind) :
    countShape (hand.map (fun card => card.rank)) = [4, 1] := by
  simp only [evaluateHand] at h
  split_ifs at h <;> simp_all

theorem eval_shape_fullHouse {hand : List Card} (h : evaluateHand hand = .fullHouse) :
    countShape (hand.map (fun card => card.rank)) = [3, 2] := by
  simp only [evaluateHand] at h
  split_ifs at h <;> simp_all

theorem eval_shape_threeOfAKind {hand : List Card} (h : evaluateHand hand = .threeOfAKind) :
    countShape (hand.map (fun card => card.rank)) = [3, 1, 1] := by
  simp only [evaluateHand] at h
  split_ifs at h <;> simp_all

theorem eval_shape_twoPair {hand : List Card} (h : evaluateHand hand = .twoPair) :
    countShape (hand.map (fun card => card.rank)) = [2, 2, 1] := by
  simp only [evaluateHand] at h
  split_ifs at h <;> simp_all

theorem eval_shape_onePair {hand : List Card} (h : evaluateHand hand = .onePair) :
    countShape (hand.map (fun card => card.rank)) = [2, 1, 1, 1] := by
  simp only [evaluateHand] at h
  split_ifs at h <;> simp_all

theorem eval_straight_checkStraight {hand : List Card} (h : evaluateHand hand = .straight) :
    checkStraight (hand.map (fun card => card.rank)) = true := by
  simp only [evaluateHand] at h
  split_ifs at h <;> simp_all

theorem eval_straightFlush_checkStraight {hand : List Card}
    (h : evaluateHand hand = .straightFlush) :
    checkStraight (hand.map (fun card => card.rank)) = true := by
  simp only [evaluateHand] at h
  split_ifs at h <;> simp_all

theorem getTwoPairRanks_of_shape {hand : List Card}
    (hshape : countShape (hand.map (fun card => card.rank)) = [2, 2, 1]) :
    ∃ p0 p1, getTwoPairRanks hand = some (p0, p1) ∧ p0 ≠ p1 ∧
      (hand.map (fun card => card.rank)).count p0 = 2 ∧
      (hand.map (fun card => card.rank)).count p1 = 2 := by
  have hperm : List.Perm
      ((hand.map (fun card => card.rank)).dedup.map
        (fun r => (hand.map (fun card => card.rank)).count r)) [2, 2, 1] := by
    rw [← hshape]
    exact (List.perm_insertionSort _ _).symm
  have hflen : ((hand.map (fun card => card.rank)).dedup.filter
      (fun r => (hand.map (fun card => card.rank)).count r == 2)).length = 2 := by
    rw [← List.countP_eq_length_filter]
    have hmapP := List.countP_map (fun n => n == 2)
      (fun r => (hand.map (fun card => card.rank)).count r)
      (hand.map (fun card => card.rank)).dedup
    have : ((hand.map (fun card => card.rank)).dedup.countP
        ((fun n => n == 2) ∘ fun r => (hand.map (fun card => card.rank)).count r)) = 2 := by
      rw [← hmapP, hperm.countP_eq]
      decide
    exact this
  have hplen : (((hand.map (fun card => card.rank)).dedup.filter
      (fun r => (hand.map (fun card => card.rank)).count r == 2)).insertionSort
        (fun a b => rankToValue a ≥ rankToValue b)).length = 2 := by
    rw [(List.perm_insertionSort _ _).length_eq]
    exact hflen
  obtain ⟨p0, p1, hp⟩ := List.length_eq_two.mp hplen
  have hmemc : ∀ x ∈ ((hand.map (fun card => card.rank)).dedup.filter
      (fun r => (hand.map (fun card => card.rank)).count r == 2)).insertionSort
        (fun a b => rankToValue a ≥ rankToValue b),
      (hand.map (fun card => card.rank)).count x = 2 := by
    intro x hx
    have hxf := (List.perm_insertionSort _ _).mem_iff.mp hx
    simpa using (List.mem_filter.mp hxf).2
  have hnd : (((hand.map (fun card => card.rank)).dedup.filter
      (fun r => (hand.map (fun card => card.rank)).count r == 2)).insertionSort
        (fun a b => rankToValue a ≥ rankToValue b)).Nodup := by
    refine ((List.perm_insertionSort _ _).nodup_iff).mpr ?_
    exact (List.nodup_dedup _).filter _
  refine ⟨p0, p1, ?_, ?_, ?_, ?_⟩
  · simp only [getTwoPairRanks]
    rw [hp]
  · rw [hp] at hnd
    have hnin : p0 ∉ [p1] := (List.nodup_cons.mp hnd).1
    simpa using hnin
  · exact hmemc p0 (by rw [hp]; simp)
  · exact hmemc p1 (by rw [hp]; simp)

theorem exists_third_rank_twoPair {hand : List Card} {p0 p1 : Rank}
    (hshape : countShape (hand.map (fun card => card.rank)) = [2, 2, 1])
    (hc0 : (hand.map (fun card => card.rank)).count p0 = 2)
    (hc1 : (hand.map (fun card => card.rank)).count p1 = 2) :
    ∃ card ∈ hand, (card.rank != p0 && card.rank != p1) = true := by
  obtain ⟨r3, hr3mem, hr3c⟩ := countShape_mem
    (show (1 : ℕ) ∈ countShape (hand.map (fun card => card.rank)) by rw [hshape]; decide)
  have hne0 : r3 ≠ p0 := by
    intro h; rw [h, hc0] at hr3c; exact absurd hr3c (by decide)
  have hne1 : r3 ≠ p1 := by
    intro h; rw [h, hc1] at hr3c; exact absurd hr3c (by decide)
  obtain ⟨card, hcard, rfl⟩ := List.mem_map.mp (List.mem_dedup.mp hr3mem)
  exact ⟨card, hcard, by simp [hne0, hne1]⟩

/-! ## The comparator computes a lexicographic key comparison -/

theorem compareHighHands_key {hand1 hand2 : List Card} {c : HandRank}
    (l1 : hand1.length = 5) (l2 : hand2.length = 5)
    (e1 : evaluateHand hand1 = c) (e2 : evaluateHand hand2 = c) :
    compareHighHands hand1 hand2 c =
      some (lexCmpDesc (handKey hand1 c) (handKey hand2 c)) := by
  have hne1 : hand1 ≠ [] := by intro hn; rw [hn] at l1; exact absurd l1 (by decide)
  have hne2 : hand2 ≠ [] := by intro hn; rw [hn] at l2; exact absurd l2 (by decide)
  cases c with
  | royalFlush => simp [compareHighHands, handKey, lexCmpDesc]
  | flush => simp only [compareHighHands, handKey]
  | highCard => simp only [compareHighHands, handKey]
  | straight =>
    obtain ⟨hc1, h1⟩ := getStraightHighCard_isSome hne1
    obtain ⟨hc2, h2⟩ := getStraightHighCard_isSome hne2
    simp only [compareHighHands, handKey, h1, h2, lexCmpDesc, cmpDesc]
  | straightFlush =>
    obtain ⟨hc1, h1⟩ := getStraightHighCard_isSome hne1
    obtain ⟨hc2, h2⟩ := getStraightHighCard_isSome hne2
    simp only [compareHighHands, handKey, h1, h2, lexCmpDesc, cmpDesc]
  | fourOfAKind =>
    have s1 := eval_shape_fourOfAKind e1
    have s2 := eval_shape_fourOfAKind e2
    obtain ⟨q1, hq1, hcq1⟩ := getRepeatedRank_of_shape s1 (by decide : (4 : ℕ) ∈ [4, 1])
    obtain ⟨q2, hq2, hcq2⟩ := getRepeatedRank_of_shape s2 (by decide : (4 : ℕ) ∈ [4, 1])
    obtain ⟨k1, hk1⟩ := kickerMax_isSome
      (exists_rank_ne (q := q1) (by rw [hcq1, l1]; decide))
    obtain ⟨k2, hk2⟩ := kickerMax_isSome
      (exists_rank_ne (q := q2) (by rw [hcq2, l2]; decide))
    simp only [compareHighHands, handKey, hq1, hq2, hk1, hk2, cmpW_coe, WithBot.unbot'_coe,
      lexCmpDesc, cmpDesc]
    split_ifs <;> rfl
  | fullHouse =>
    have s1 := eval_shape_fullHouse e1
    have s2 := eval_shape_fullHouse e2
    obtain ⟨t1, ht1, -⟩ := getRepeatedRank_of_shape s1 (by decide : (3 : ℕ) ∈ [3, 2])
    obtain ⟨t2, ht2, -⟩ := getRepeatedRank_of_shape s2 (by decide : (3 : ℕ) ∈ [3, 2])
    obtain ⟨p1, hp1, -⟩ := getRepeatedRank_of_shape s1 (by decide : (2 : ℕ) ∈ [3, 2])
    obtain ⟨p2, hp2, -⟩ := getRepeatedRank_of_shape s2 (by decide : (2 : ℕ) ∈ [3, 2])
    simp only [compareHighHands, handKey, ht1, ht2, hp1, hp2, lexCmpDesc, cmpDesc]
    split_ifs <;> rfl
  | threeOfAKind =>
    have s1 := eval_shape_threeOfAKind e1
    have s2 := eval_shape_threeOfAKind e2
    obtain ⟨t1, ht1, -⟩ := getRepeatedRank_of_shape s1 (by decide : (3 : ℕ) ∈ [3, 1, 1])
    obtain ⟨t2, ht2, -⟩ := getRepeatedRank_of_shape s2 (by decide : (3 : ℕ) ∈ [3, 1, 1])
    simp only [compareHighHands, handKey, ht1, ht2, lexCmpDesc]
    split_ifs <;> rfl
  | twoPair =>
    have s1 := eval_shape_twoPair e1
    have s2 := eval_shape_twoPair e2
    obtain ⟨a1, b1, hp1, -, hca1, hcb1⟩ := getTwoPairRanks_of_shape s1
    obtain ⟨a2, b2, hp2, -, hca2, hcb2⟩ := getTwoPairRanks_of_shape s2
    obtain ⟨k1, hk1⟩ := kickerMax_isSome (exists_third_rank_twoPair s1 hca1 hcb1)
    obtain ⟨k2, hk2⟩ := kickerMax_isSome (exists_third_rank_twoPair s2 hca2 hcb2)
    simp only [compareHighHands, handKey, hp1, hp2, hk1, hk2, cmpW_coe, WithBot.unbot'_coe,
      lexCmpDesc, cmpDesc]
    split_ifs <;> rfl
  | onePair =>
    have s1 := eval_shape_onePair e1
    have s2 := eval_shape_onePair e2
    obtain ⟨t1, ht1, -⟩ := getRepeatedRank_of_shape s1 (by decide : (2 : ℕ) ∈ [2, 1, 1, 1])
    obtain ⟨t2, ht2, -⟩ := getRepeatedRank_of_shape s2 (by decide : (2 : ℕ) ∈ [2, 1, 1, 1])
    simp only [compareHighHands, handKey, ht1, ht2, lexCmpDesc]
    split_ifs <;> rfl

/-! ## C7 and C10: ordering properties of the comparator -/

/-- C7: on 5-card hands classifying to a shared category, `compareHighHands`
behaves as a strict weak ordering: a win over a winner is a win
(transitivity of result -1), and a hand compared with itself yields 0. -/
theorem compareHighHands_swo (c : HandRank) (A B C : List Card)
    (lA : A.length = 5) (lB : B.length = 5) (lC : C.length = 5)
    (eA : evaluateHand A = c) (eB : evaluateHand B = c) (eC : evaluateHand C = c) :
    (compareHighHands A B c = some (-1) → compareHighHands B C c = some (-1) →
      compareHighHands A C c = some (-1)) ∧
    compareHighHands A A c = some 0 := by
  constructor
  · intro hab hbc
    rw [compareHighHands_key lA lB eA eB] at hab
    rw [compareHighHands_key lB lC eB eC] at hbc
    rw [compareHighHands_key lA lC eA eC]
    rw [lexCmpDesc_trans _ _ _ (Option.some.inj hab) (Option.some.inj hbc)]
  · rw [compareHighHands_key lA lA eA eA, lexCmpDesc_self]

/-- C7 witness: three concrete HighCard hands A♠K♥Q♦J♣9♥, A♦K♣Q♥J♠8♦ and
A♥K♦Q♠J♥7♣ instantiate transitivity and reflexivity. -/
theorem compareHighHands_swo_witness :
    compareHighHands hcHandA hcHandC .highCard = some (-1) ∧
    compareHighHands hcHandA hcHandA .highCard = some 0 := by
  have h := compareHighHands_swo .highCard hcHandA hcHandB hcHandC
    (by decide) (by decide) (by decide) (by decide) (by decide) (by decide)
  exact ⟨h.1 (by decide) (by decide), h.2⟩

/-- C10: on 5-card hands classifying to a shared category,
`compareHighHands` never hits a failure path (the `getRepeatedRank` throw,
the `getTwoPairRanks` out-of-range access, the straight-high lookup miss)
and returns a value in {-1, 0, 1}. -/
theorem compareHighHands_total_in_category (c : HandRank) (hand1 hand2 : List Card)
    (l1 : hand1.length = 5) (l2 : hand2.length = 5)
    (e1 : evaluateHand hand1 = c) (e2 : evaluateHand hand2 = c) :
    ∃ r, compareHighHands hand1 hand2 c = some r ∧ (r = -1 ∨ r = 0 ∨ r = 1) := by
  exact ⟨_, compareHighHands_key l1 l2 e1 e2, lexCmpDesc_cases _ _⟩

/-- C10 witness: two concrete FourOfAKind hands exercise the quad branch,
whose kicker lookups the claim asserts cannot fail. -/
theorem compareHighHands_total_in_category_witness :
    ∃ r, compareHighHands quadAces quadKings .fourOfAKind = some r ∧
      (r = -1 ∨ r = 0 ∨ r = 1) :=
  compareHighHands_total_in_category .fourOfAKind quadAces quadKings
    (by decide) (by decide) (by decide) (by decide)

/-! ## The straight's comparison high card -/

theorem foldl_pick_spec (c : Card) (cs : List Card) :
    (cs.foldl (fun best card =>
      if rankToValue card.rank > rankToValue best.rank then card else best) c) ∈ c :: cs ∧
    ∀ x ∈ c :: cs, rankToValue x.rank ≤ rankToValue
      ((cs.foldl (fun best card =>
        if rankToValue card.rank > rankToValue best.rank then card else best) c)).rank := by
  induction cs generalizing c with
  | nil => simp
  | cons d ds ih =>
    obtain ⟨hmem, hbound⟩ := ih (if rankToValue d.rank > rankToValue c.rank then d else c)
    constructor
    · rw [List.foldl_cons]
      rcases List.mem_cons.mp hmem with h | h
      · rw [h]
        split_ifs <;> simp
      · exact List.mem_cons_of_mem _ (List.mem_cons_of_mem _ h)
    · intro x hx
      rw [List.foldl_cons]
      have hpickc : rankToValue c.rank ≤
          rankToValue (if rankToValue d.rank > rankToValue c.rank then d else c).rank := by
        split_ifs with hgt
        · exact le_of_lt hgt
        · exact le_refl _
      have hpickd : rankToValue d.rank ≤
          rankToValue (if rankToValue d.rank > rankToValue c.rank then d else c).rank := by
        split_ifs with hgt
        · exact le_refl _
        · exact not_lt.mp hgt
      have hpb := hbound _ (List.mem_cons_self _ _)
      rcases List.mem_cons.mp hx with rfl | hx1
      · exact le_trans hpickc hpb
      · rcases List.mem_cons.mp hx1 with rfl | hx2
        · exact le_trans hpickd hpb
        · exact hbound x (List.mem_cons_of_mem _ hx2)

theorem getHighCard_spec {hand : List Card} {hc : Card} (h : getHighCard hand = some hc) :
    hc ∈ hand ∧ ∀ x ∈ hand, rankToValue x.rank ≤ rankToValue hc.rank := by
  cases hand with
  | nil => cases h
  | cons c cs =>
    have hfold := foldl_pick_spec c cs
    have heq : (cs.foldl (fun best card =>
        if rankToValue card.rank > rankToValue best.rank then card else best) c) = hc :=
      Option.some.inj h
    rw [heq] at hfold
    exact hfold

theorem getStraightHighCard_value {hand : List Card} {hc : Card}
    (h : getStraightHighCard hand = some hc) :
    rankToValue hc.rank = straightCompValue hand := by
  unfold getStraightHighCard at h
  unfold straightCompValue isWheel
  split_ifs at h ⊢ with hw
  · have hp := List.find?_some h
    have hr : hc.rank = Rank.five := by simpa using hp
    rw [hr]
    rfl
  · obtain ⟨hmem, hbound⟩ := getHighCard_spec h
    have hmax : (hand.map (fun card => rankToValue card.rank)).maximum
        = WithBot.some (rankToValue hc.rank) := by
      rw [List.maximum_eq_coe_iff]
      refine ⟨List.mem_map_of_mem _ hmem, ?_⟩
      intro a ha
      obtain ⟨x, hx, rfl⟩ := List.mem_map.mp ha
      exact hbound x hx
    rw [hmax]
    rfl

/-! ## The wheel branch of `checkStraight` forces the value set {2,3,4,5,14} -/

theorem remap_sorted_wheel {vs : List ℕ} (hvs : ∀ v ∈ vs, 2 ≤ v) :
    ((vs.map (fun v => if v = 14 then 1 else v)).insertionSort (· ≤ ·) = [1, 2, 3, 4, 5]) ↔
    vs.insertionSort (· ≤ ·) = [2, 3, 4, 5, 14] := by
  constructor
  · intro h
    have hperm : List.Perm (vs.map (fun v => if v = 14 then 1 else v)) [1, 2, 3, 4, 5] := by
      rw [← h]
      exact (List.perm_insertionSort _ _).symm
    have hback : vs.map ((fun v => if v = 1 then 14 else v) ∘ (fun v => if v = 14 then 1 else v))
        = vs.map id := by
      apply List.map_congr_left
      intro v hv
      have h2 := hvs v hv
      by_cases h14 : v = 14
      · simp [h14, Function.comp]
      · have hne1 : v ≠ 1 := by omega
        simp [h14, hne1, Function.comp]
    have hvs_perm : List.Perm vs [14, 2, 3, 4, 5] := by
      have hstep := hperm.map (fun v => if v = 1 then 14 else v)
      rw [List.map_map, hback, List.map_id] at hstep
      have hlit : [1, 2, 3, 4, 5].map (fun v => if v = 1 then 14 else v) = [14, 2, 3, 4, 5] := by
        decide
      rwa [hlit] at hstep
    exact List.eq_of_perm_of_sorted
      ((List.perm_insertionSort _ _).trans (hvs_perm.trans (by decide)))
      (List.sorted_insertionSort _ _) (by decide)
  · intro h
    have hvs_perm : List.Perm vs [2, 3, 4, 5, 14] := by
      rw [← h]
      exact (List.perm_insertionSort _ _).symm
    have hmap := hvs_perm.map (fun v => if v = 14 then 1 else v)
    have hlit : [2, 3, 4, 5, 14].map (fun v => if v = 14 then 1 else v) = [2, 3, 4, 5, 1] := by
      decide
    rw [hlit] at hmap
    exact List.eq_of_perm_of_sorted
      ((List.perm_insertionSort _ _).trans (hmap.trans (by decide)))
      (List.sorted_insertionSort _ _) (by decide)

theorem checkStraight_iff (ranks : List Rank) :
    checkStraight ranks = true ↔
    (isConsecutive ((ranks.map rankToValue).insertionSort (· ≤ ·)) = true ∨
     (ranks.map rankToValue).insertionSort (· ≤ ·) = [2, 3, 4, 5, 14]) := by
  have hvals : ∀ v ∈ (ranks.map rankToValue).insertionSort (· ≤ ·), 2 ≤ v := by
    intro v hv
    obtain ⟨r, -, rfl⟩ := List.mem_map.mp ((List.perm_insertionSort _ _).mem_iff.mp hv)
    exact two_le_rankToValue r
  simp only [checkStraight]
  split_ifs with h1 h2
  · simp [h1]
  · constructor
    · intro hb
      right
      have hb2 : ((((ranks.map rankToValue).insertionSort (· ≤ ·)).map
          (fun v => if v = 14 then 1 else v)).insertionSort (· ≤ ·) == [1, 2, 3, 4, 5])
            = true := by
        simp only [Bool.and_eq_true] at hb
        exact hb.2
      have hwv : (((ranks.map rankToValue).insertionSort (· ≤ ·)).map
          (fun v => if v = 14 then 1 else v)).insertionSort (· ≤ ·) = [1, 2, 3, 4, 5] := by
        simpa using hb2
      have hres := (remap_sorted_wheel hvals).mp hwv
      rwa [List.Sorted.insertionSort_eq (List.sorted_insertionSort _ _)] at hres
    · intro hor
      rcases hor with hcons | hw
      · exact absurd hcons h1
      · have hres := (remap_sorted_wheel hvals).mpr
          (by rwa [List.Sorted.insertionSort_eq (List.sorted_insertionSort _ _)])
        simp only [Bool.and_eq_true]
        refine ⟨by rw [hres]; decide, by simp [hres]⟩
  · constructor
    · intro hb
      exact absurd hb (by simp)
    · intro hor
      rcases hor with hcons | hw
      · exact absurd hcons h1
      · exfalso
        apply h2
        rw [hw]
        decide

/-! ## Consecutive sorted values of a 5-card hand -/

theorem exists_five_of_length_eq {α : Type} {l : List α} (h : l.length = 5) :
    ∃ a b c d e, l = [a, b, c, d, e] := by
  obtain _ | ⟨a, _ | ⟨b, _ | ⟨c, _ | ⟨d, _ | ⟨e, _ | ⟨f, t⟩⟩⟩⟩⟩⟩ := l
  · exfalso; simp only [List.length_nil] at h; omega
  · exfalso; simp only [List.length_cons, List.length_nil] at h; omega
  · exfalso; simp only [List.length_cons, List.length_nil] at h; omega
  · exfalso; simp only [List.length_cons, List.length_nil] at h; omega
  · exfalso; simp only [List.length_cons, List.length_nil] at h; omega
  · exact ⟨a, b, c, d, e, rfl⟩
  · exfalso
    simp only [List.length_cons] at h
    omega

theorem map_value_eq (hand : List Card) :
    (hand.map (fun card => card.rank)).map rankToValue
      = hand.map (fun card => rankToValue card.rank) := by
  rw [List.map_map]
  rfl

theorem straight_sorted_structure {hand : List Card} (hlen : hand.length = 5)
    (hcons : isConsecutive
      ((hand.map (fun card => rankToValue card.rank)).insertionSort (· ≤ ·)) = true) :
    ∃ a, 2 ≤ a ∧
      (hand.map (fun card => rankToValue card.rank)).insertionSort (· ≤ ·)
        = [a, a + 1, a + 2, a + 3, a + 4] := by
  have hslen : ((hand.map (fun card => rankToValue card.rank)).insertionSort (· ≤ ·)).length
      = 5 := by
    rw [(List.perm_insertionSort _ _).length_eq, List.length_map, hlen]
  obtain ⟨v1, v2, v3, v4, v5, heq⟩ := exists_five_of_length_eq hslen
  have h2le : 2 ≤ v1 := by
    have hv1mem : v1 ∈ (hand.map (fun card => rankToValue card.rank)).insertionSort (· ≤ ·) := by
      rw [heq]; simp
    obtain ⟨card, -, rfl⟩ := List.mem_map.mp ((List.perm_insertionSort _ _).mem_iff.mp hv1mem)
    exact two_le_rankToValue _
  refine ⟨v1, h2le, ?_⟩
  rw [heq] at hcons ⊢
  simp only [isConsecutive, Bool.and_eq_true, beq_iff_eq] at hcons
  have hsteps : v2 = v1 + 1 ∧ v3 = v1 + 2 ∧ v4 = v1 + 3 ∧ v5 = v1 + 4 := by omega
  rw [hsteps.1, hsteps.2.1, hsteps.2.2.1, hsteps.2.2.2]

theorem straightCompValue_ge_six {hand : List Card} (hlen : hand.length = 5)
    (hstraight : checkStraight (hand.map (fun card => card.rank)) = true)
    (hnw : ¬ isWheel hand) :
    6 ≤ straightCompValue hand := by
  have hcases := (checkStraight_iff (hand.map (fun card => card.rank))).mp hstraight
  rw [map_value_eq] at hcases
  have hcons : isConsecutive
      ((hand.map (fun card => rankToValue card.rank)).insertionSort (· ≤ ·)) = true := by
    rcases hcases with h | h
    · exact h
    · exact absurd (show isWheel hand from h) hnw
  obtain ⟨a, ha2, hsorted⟩ := straight_sorted_structure hlen hcons
  unfold straightCompValue
  rw [if_neg hnw]
  have hmax : (hand.map (fun card => rankToValue card.rank)).maximum = WithBot.some (a + 4) := by
    rw [List.maximum_eq_coe_iff]
    constructor
    · exact (List.perm_insertionSort _ _).mem_iff.mp (by rw [hsorted]; simp)
    · intro x hx
      have hxs : x ∈ (hand.map (fun card => rankToValue card.rank)).insertionSort (· ≤ ·) :=
        (List.perm_insertionSort _ _).mem_iff.mpr hx
      rw [hsorted] at hxs
      simp only [List.mem_cons, List.not_mem_nil, or_false] at hxs
      omega
  rw [hmax]
  show 6 ≤ a + 4
  omega

/-! ## C4: comparison of straights -/

/-- C4: on two 5-card hands that both classify as Straight (or both as
StraightFlush), `compareHighHands` compares the straights' comparison high
values — 5 for the wheel, the top card value otherwise; consequently the
wheel loses to every non-wheel straight (result 1), and equal comparison
values give 0. -/
theorem compareHighHands_straight_spec (c : HandRank) (hand1 hand2 : List Card)
    (hc : c = .straight ∨ c = .straightFlush)
    (l1 : hand1.length = 5) (l2 : hand2.length = 5)
    (e1 : evaluateHand hand1 = c) (e2 : evaluateHand hand2 = c) :
    compareHighHands hand1 hand2 c =
      some (cmpDesc (straightCompValue hand1) (straightCompValue hand2)) ∧
    (isWheel hand1 → ¬ isWheel hand2 → compareHighHands hand1 hand2 c = some 1) ∧
    (straightCompValue hand1 = straightCompValue hand2 →
      compareHighHands hand1 hand2 c = some 0) := by
  have hne1 : hand1 ≠ [] := fun hn => by rw [hn] at l1; exact absurd l1 (by decide)
  have hne2 : hand2 ≠ [] := fun hn => by rw [hn] at l2; exact absurd l2 (by decide)
  obtain ⟨hc1, h1⟩ := getStraightHighCard_isSome hne1
  obtain ⟨hc2, h2⟩ := getStraightHighCard_isSome hne2
  have hv1 := getStraightHighCard_value h1
  have hv2 := getStraightHighCard_value h2
  have hmain : compareHighHands hand1 hand2 c =
      some (cmpDesc (straightCompValue hand1) (straightCompValue hand2)) := by
    rcases hc with rfl | rfl
    · simp only [compareHighHands, h1, h2, hv1, hv2]
    · simp only [compareHighHands, h1, h2, hv1, hv2]
  refine ⟨hmain, ?_, ?_⟩
  · intro hw1 hnw2
    rw [hmain]
    have hs2 : checkStraight (hand2.map (fun card => card.rank)) = true := by
      rcases hc with rfl | rfl
      · exact eval_straight_checkStraight e2
      · exact eval_straightFlush_checkStraight e2
    have h6 := straightCompValue_ge_six l2 hs2 hnw2
    have h5 : straightCompValue hand1 = 5 := by
      unfold straightCompValue
      rw [if_pos hw1]
    rw [h5]
    unfold cmpDesc
    rw [if_neg (by omega), if_pos (by omega)]
  · intro heq
    rw [hmain, heq, cmpDesc_self]

/-- C4 witness: the mixed-suit wheel loses to the mixed-suit 2-3-4-5-6
straight. -/
theorem compareHighHands_straight_spec_witness :
    compareHighHands wheelMixed mixedRun .straight = some 1 := by
  have h := compareHighHands_straight_spec .straight wheelMixed mixedRun (Or.inl rfl)
    (by decide) (by decide) (by decide) (by decide)
  exact h.2.1 (by decide) (by decide)

/-! ## Bridges between the code's Boolean tests and the spec's wording -/

theorem isConsecutive_iff_stepOne : ∀ l : List ℕ, isConsecutive l = true ↔ StepOne l
  | [] => by simp [isConsecutive, StepOne]
  | [_] => by simp [isConsecutive, StepOne]
  | a :: b :: t => by
    simp only [isConsecutive, StepOne, Bool.and_eq_true, beq_iff_eq]
    constructor
    · rintro ⟨h1, h2⟩
      exact ⟨by omega, (isConsecutive_iff_stepOne (b :: t)).mp h2⟩
    · rintro ⟨h1, h2⟩
      exact ⟨by omega, (isConsecutive_iff_stepOne (b :: t)).mpr h2⟩

theorem isFlush_bridge {hand : List Card} (hne : hand ≠ []) :
    (((hand.map (fun card => card.suit)).dedup.length == 1) = true) ↔ spec_isFlush hand := by
  rw [beq_iff_eq]
  unfold spec_isFlush
  constructor
  · intro h c1 h1 c2 h2
    obtain ⟨s, hs⟩ := List.length_eq_one.mp h
    have hm1 : c1.suit ∈ (hand.map (fun card => card.suit)).dedup :=
      List.mem_dedup.mpr (List.mem_map_of_mem _ h1)
    have hm2 : c2.suit ∈ (hand.map (fun card => card.suit)).dedup :=
      List.mem_dedup.mpr (List.mem_map_of_mem _ h2)
    rw [hs] at hm1 hm2
    rw [List.mem_singleton.mp hm1, List.mem_singleton.mp hm2]
  · intro h
    cases hand with
    | nil => exact absurd rfl hne
    | cons c cs =>
      have htf : ((c :: cs).map (fun card => card.suit)).toFinset = {c.suit} := by
        apply Finset.ext
        intro s
        simp only [List.mem_toFinset, Finset.mem_singleton, List.mem_map]
        constructor
        · rintro ⟨card, hcard, rfl⟩
          exact h card hcard c (List.mem_cons_self _ _)
        · intro hs
          exact ⟨c, List.mem_cons_self _ _, hs.symm⟩
      have := List.card_toFinset ((c :: cs).map (fun card => card.suit))
      rw [htf] at this
      simpa using this.symm

theorem isStraight_bridge (hand : List Card) :
    (checkStraight (hand.map (fun card => card.rank)) = true) ↔ spec_isStraight hand := by
  rw [checkStraight_iff, map_value_eq]
  unfold spec_isStraight
  constructor
  · rintro (h | h)
    · exact Or.inl ((isConsecutive_iff_stepOne _).mp h)
    · right
      have hperm : List.Perm (hand.map (fun card => rankToValue card.rank)) [2, 3, 4, 5, 14] := by
        rw [← h]
        exact (List.perm_insertionSort _ _).symm
      exact hperm.trans (by decide)
  · rintro (h | h)
    · exact Or.inl ((isConsecutive_iff_stepOne _).mpr h)
    · right
      exact List.eq_of_perm_of_sorted
        ((List.perm_insertionSort _ _).trans (h.trans (by decide)))
        (List.sorted_insertionSort _ _) (by decide)

theorem isRoyal_bridge (hand : List Card) :
    (isRoyalRanks (hand.map (fun card => card.rank)) = true) ↔ spec_isRoyal hand := by
  unfold isRoyalRanks spec_isRoyal
  simp only [Bool.and_eq_true, beq_iff_eq, List.all_eq_true]
  constructor
  · rintro ⟨hlen, hall⟩
    have hsub : ({Rank.ace, Rank.king, Rank.queen, Rank.jack, Rank.ten} : Finset Rank) ⊆
        (hand.map (fun card => card.rank)).toFinset := by
      intro r hr
      rw [List.mem_toFinset]
      have hrr : r ∈ [Rank.ace, Rank.king, Rank.queen, Rank.jack, Rank.ten] := by
        simp only [Finset.mem_insert, Finset.mem_singleton] at hr
        simpa using hr
      have := hall r hrr
      simpa using this
    have hcard : ((hand.map (fun card => card.rank)).toFinset).card = 5 := by
      rw [List.card_toFinset, hlen]
    exact (Finset.eq_of_subset_of_card_le hsub (by rw [hcard]; decide)).symm
  · intro h
    constructor
    · have := List.card_toFinset (hand.map (fun card => card.rank))
      rw [h] at this
      simpa using this.symm
    · intro r hr
      have hmem : r ∈ (hand.map (fun card => card.rank)).toFinset := by
        rw [h]
        simp only [List.mem_cons, List.not_mem_nil, or_false] at hr
        rcases hr with rfl | rfl | rfl | rfl | rfl <;> decide
      rw [List.mem_toFinset] at hmem
      simpa using hmem

/-! ## C3: the classifier matches the spec's precedence -/

/-- C3: on every 5-card hand the code's classifier agrees with the
classifier written exactly from the spec's wording (first-match precedence
over flush, straight-with-wheel, royal rank set, and descending
count-shape); being a function, it yields exactly one category. -/
theorem evaluateHand_eq_spec_classify (hand : List Card) (hlen : hand.length = 5) :
    evaluateHand hand = spec_classify hand := by
  have hne : hand ≠ [] := fun hn => by rw [hn] at hlen; exact absurd hlen (by decide)
  have bF := isFlush_bridge hne
  have bS := isStraight_bridge hand
  have bR := isRoyal_bridge hand
  simp only [evaluateHand, spec_classify]
  refine if_congr ?_ rfl (if_congr ?_ rfl (if_congr ?_ rfl (if_congr ?_ rfl (if_congr ?_ rfl
    (if_congr ?_ rfl (if_congr ?_ rfl (if_congr ?_ rfl (if_congr ?_ rfl rfl))))))))
  · simp only [Bool.and_eq_true]
    rw [bF, bS, bR]
    exact and_assoc
  · simp only [Bool.and_eq_true]
    rw [bF, bS]
  · exact beq_iff_eq
  · exact beq_iff_eq
  · exact bF
  · exact bS
  · exact beq_iff_eq
  · exact beq_iff_eq
  · exact beq_iff_eq

/-- C3 witness: the concrete full house 8-8-8-3-3 instantiates the
agreement, and both classifiers return FullHouse on it. -/
theorem evaluateHand_eq_spec_classify_witness :
    evaluateHand fullEights = spec_classify fullEights ∧
    spec_classify fullEights = .fullHouse := by
  refine ⟨evaluateHand_eq_spec_classify fullEights (by decide), ?_⟩
  decide

/-! ## C5 (amended): one-suit strict runs below the royal set -/

/-- C5 (amended): every 5-card hand whose suits are all identical, whose
sorted high values are strictly consecutive, and whose ranks are not
exactly {10, J, Q, K, A}, classifies as StraightFlush — never RoyalFlush,
never Flush. -/
theorem straightFlush_of_monosuit_run (hand : List Card) (hlen : hand.length = 5)
    (hsuit : ∀ c1 ∈ hand, ∀ c2 ∈ hand, c1.suit = c2.suit)
    (hrun : StepOne ((hand.map (fun card => rankToValue card.rank)).insertionSort (· ≤ ·)))
    (hnr : (hand.map (fun card => card.rank)).toFinset ≠
      {Rank.ace, Rank.king, Rank.queen, Rank.jack, Rank.ten}) :
    evaluateHand hand = .straightFlush ∧
    evaluateHand hand ≠ .royalFlush ∧ evaluateHand hand ≠ .flush := by
  have hne : hand ≠ [] := fun hn => by rw [hn] at hlen; exact absurd hlen (by decide)
  have hF : (((hand.map (fun card => card.suit)).dedup.length == 1) = true) :=
    (isFlush_bridge hne).mpr hsuit
  have hS : checkStraight (hand.map (fun card => card.rank)) = true :=
    (isStraight_bridge hand).mpr (Or.inl hrun)
  have hR : isRoyalRanks (hand.map (fun card => card.rank)) = false := by
    cases hir : isRoyalRanks (hand.map (fun card => card.rank)) with
    | false => rfl
    | true => exact absurd ((isRoyal_bridge hand).mp hir) hnr
  have heval : evaluateHand hand = .straightFlush := by
    simp [evaluateHand, hF, hS, hR]
  exact ⟨heval, by rw [heval]; decide, by rw [heval]; decide⟩

/-- C5 (amended) witness: the one-suit run 9♥ 10♥ J♥ Q♥ K♥. -/
theorem straightFlush_of_monosuit_run_witness :
    evaluateHand heartsRun = .straightFlush ∧
    evaluateHand heartsRun ≠ .royalFlush ∧ evaluateHand heartsRun ≠ .flush :=
  straightFlush_of_monosuit_run heartsRun (by decide) (by decide) (by decide) (by decide)

/-! ## C9: the evaluator depends only on (suit, rank), never on ids -/

theorem map_rank_of_srOf {h h' : List Card} (hsr : MapSR h h') :
    h.map (fun card => card.rank) = h'.map (fun card => card.rank) := by
  have hc := congrArg (List.map Prod.snd) (show h.map srOf = h'.map srOf from hsr)
  rw [List.map_map, List.map_map] at hc
  exact hc

theorem map_suit_of_srOf {h h' : List Card} (hsr : MapSR h h') :
    h.map (fun card => card.suit) = h'.map (fun card => card.suit) := by
  have hc := congrArg (List.map Prod.fst) (show h.map srOf = h'.map srOf from hsr)
  rw [List.map_map, List.map_map] at hc
  exact hc

theorem evaluateHand_congr {h h' : List Card} (hsr : MapSR h h') :
    evaluateHand h = evaluateHand h' := by
  simp only [evaluateHand]
  rw [map_rank_of_srOf hsr, map_suit_of_srOf hsr]

theorem filter_rank_factor (h : List Card) (p : Rank → Bool) (f : Rank → ℕ) :
    (h.filter (fun card => p card.rank)).map (fun card => f card.rank) =
    ((h.map (fun card => card.rank)).filter p).map f := by
  induction h with
  | nil => rfl
  | cons c cs ih =>
    simp only [List.map_cons, List.filter_cons]
    by_cases hc : p c.rank
    · simp [hc, ih]
    · simp [hc, ih]

theorem filter_rank_length (h : List Card) (p : Rank → Bool) :
    (h.filter (fun card => p card.rank)).length =
    ((h.map (fun card => card.rank)).filter p).length := by
  have hfac := congrArg List.length (filter_rank_factor h p (fun _ => 0))
  simpa using hfac

theorem kickersDesc_congr {h h' : List Card} (hsr : MapSR h h') (r : Rank) :
    kickersDesc h r = kickersDesc h' r := by
  unfold kickersDesc
  rw [filter_rank_factor h (fun x => x != r) rankToValue,
    filter_rank_factor h' (fun x => x != r) rankToValue, map_rank_of_srOf hsr]

theorem kickerMax_ne_congr {h h' : List Card} (hsr : MapSR h h') (r : Rank) :
    kickerMax h (fun card => card.rank != r) = kickerMax h' (fun card => card.rank != r) := by
  unfold kickerMax
  rw [filter_rank_factor h (fun x => x != r) rankToValue,
    filter_rank_factor h' (fun x => x != r) rankToValue, map_rank_of_srOf hsr]

theorem kickerMax_ne2_congr {h h' : List Card} (hsr : MapSR h h') (a b : Rank) :
    kickerMax h (fun card => card.rank != a && card.rank != b) =
    kickerMax h' (fun card => card.rank != a && card.rank != b) := by
  unfold kickerMax
  rw [filter_rank_factor h (fun x => x != a && x != b) rankToValue,
    filter_rank_factor h' (fun x => x != a && x != b) rankToValue, map_rank_of_srOf hsr]

theorem descValues_congr {h h' : List Card} (hsr : MapSR h h') :
    descValues h = descValues h' := by
  unfold descValues
  rw [← map_value_eq, ← map_value_eq, map_rank_of_srOf hsr]

theorem getRepeatedRank_congr {h h' : List Card} (hsr : MapSR h h') (n : ℕ) :
    getRepeatedRank h n = getRepeatedRank h' n := by
  unfold getRepeatedRank
  rw [map_rank_of_srOf hsr]

theorem getTwoPairRanks_congr {h h' : List Card} (hsr : MapSR h h') :
    getTwoPairRanks h = getTwoPairRanks h' := by
  unfold getTwoPairRanks
  rw [map_rank_of_srOf hsr]

theorem isQualifyingLow_congr {h h' : List Card} (hsr : MapSR h h') :
    isQualifyingLow h = isQualifyingLow h' := by
  simp only [isQualifyingLow]
  rw [filter_rank_length h (fun r => decide (rankToLowValue r ≤ 8)),
    filter_rank_length h' (fun r => decide (rankToLowValue r ≤ 8)), map_rank_of_srOf hsr]

theorem map_lowValue_congr {h h' : List Card} (hsr : MapSR h h') :
    h.map (fun card => rankToLowValue card.rank) = h'.map (fun card => rankToLowValue card.rank) := by
  have hc := congrArg (List.map rankToLowValue) (map_rank_of_srOf hsr)
  rw [List.map_map, List.map_map] at hc
  exact hc

theorem compareLowHands_congr {h1 h1' h2 h2' : List Card}
    (hs1 : MapSR h1 h1') (hs2 : MapSR h2 h2') :
    compareLowHands h1 h2 = compareLowHands h1' h2' := by
  unfold compareLowHands
  rw [map_lowValue_congr hs1, map_lowValue_congr hs2]

theorem foldl_pick_rank_congr :
    ∀ (cs cs' : List Card) (c c' : Card), c.rank = c'.rank →
      cs.map (fun card => card.rank) = cs'.map (fun card => card.rank) →
      (cs.foldl (fun best card =>
        if rankToValue card.rank > rankToValue best.rank then card else best) c).rank =
      (cs'.foldl (fun best card =>
        if rankToValue card.rank > rankToValue best.rank then card else best) c').rank
  | [], [], _, _, hc, _ => hc
  | [], _ :: _, _, _, _, hm => by simp at hm
  | _ :: _, [], _, _, _, hm => by simp at hm
  | d :: ds, d' :: ds', c, c', hc, hm => by
    simp only [List.map_cons, List.cons.injEq] at hm
    obtain ⟨hd, hds⟩ := hm
    simp only [List.foldl_cons]
    have hpick : (if rankToValue d.rank > rankToValue c.rank then d else c).rank =
        (if rankToValue d'.rank > rankToValue c'.rank then d' else c').rank := by
      rw [← hd, ← hc]
      split_ifs
      · exact hd
      · exact hc
    exact foldl_pick_rank_congr ds ds' _ _ hpick hds

theorem getHighCard_rank_congr {h h' : List Card}
    (hm : h.map (fun card => card.rank) = h'.map (fun card => card.rank)) :
    (getHighCard h).map (fun card => card.rank) =
    (getHighCard h').map (fun card => card.rank) := by
  cases h with
  | nil =>
    cases h' with
    | nil => rfl
    | cons c' cs' => simp at hm
  | cons c cs =>
    cases h' with
    | nil => simp at hm
    | cons c' cs' =>
      simp only [List.map_cons, List.cons.injEq] at hm
      simp only [getHighCard, Option.map_some']
      exact congrArg some (foldl_pick_rank_congr cs cs' c c' hm.1 hm.2)

theorem find?_five_rank_congr :
    ∀ {h h' : List Card}, h.map (fun card => card.rank) = h'.map (fun card => card.rank) →
      (h.find? (fun card => card.rank == Rank.five)).map (fun card => card.rank) =
      (h'.find? (fun card => card.rank == Rank.five)).map (fun card => card.rank)
  | [], [], _ => rfl
  | [], _ :: _, hm => by simp at hm
  | _ :: _, [], hm => by simp at hm
  | c :: cs, c' :: cs', hm => by
    simp only [List.map_cons, List.cons.injEq] at hm
    obtain ⟨hc, hcs⟩ := hm
    by_cases hp : (c.rank == Rank.five) = true
    · have hp' : (c'.rank == Rank.five) = true := by rw [← hc]; exact hp
      rw [List.find?_cons_of_pos (p := fun card => card.rank == Rank.five) cs hp,
        List.find?_cons_of_pos (p := fun card => card.rank == Rank.five) cs' hp']
      simp [hc]
    · have hp' : ¬ ((c'.rank == Rank.five) = true) := by rw [← hc]; exact hp
      rw [List.find?_cons_of_neg (p := fun card => card.rank == Rank.five) cs hp,
        List.find?_cons_of_neg (p := fun card => card.rank == Rank.five) cs' hp']
      exact find?_five_rank_congr hcs

theorem getStraightHighCard_rank_congr {h h' : List Card} (hsr : MapSR h h') :
    (getStraightHighCard h).map (fun card => card.rank) =
    (getStraightHighCard h').map (fun card => card.rank) := by
  have hm := map_rank_of_srOf hsr
  have hv : h.map (fun card => rankToValue card.rank) =
      h'.map (fun card => rankToValue card.rank) := by
    rw [← map_value_eq, ← map_value_eq, hm]
  unfold getStraightHighCard
  rw [hv]
  split_ifs with hw
  · exact find?_five_rank_congr hm
  · exact getHighCard_rank_congr hm

theorem compareHighHands_congr {h1 h1' h2 h2' : List Card}
    (hs1 : MapSR h1 h1') (hs2 : MapSR h2 h2') (c : HandRank) :
    compareHighHands h1 h2 c = compareHighHands h1' h2' c := by
  cases c with
  | royalFlush => rfl
  | straight =>
    have g1 := getStraightHighCard_rank_congr hs1
    have g2 := getStraightHighCard_rank_congr hs2
    simp only [compareHighHands]
    rcases o1 : getStraightHighCard h1 with _ | c1 <;>
      rcases o2 : getStraightHighCard h1' with _ | c1' <;>
      rcases o3 : getStraightHighCard h2 with _ | c2 <;>
      rcases o4 : getStraightHighCard h2' with _ | c2' <;>
      rw [o1, o2] at g1 <;> rw [o3, o4] at g2 <;> simp_all
  | straightFlush =>
    have g1 := getStraightHighCard_rank_congr hs1
    have g2 := getStraightHighCard_rank_congr hs2
    simp only [compareHighHands]
    rcases o1 : getStraightHighCard h1 with _ | c1 <;>
      rcases o2 : getStraightHighCard h1' with _ | c1' <;>
      rcases o3 : getStraightHighCard h2 with _ | c2 <;>
      rcases o4 : getStraightHighCard h2' with _ | c2' <;>
      rw [o1, o2] at g1 <;> rw [o3, o4] at g2 <;> simp_all
  | fourOfAKind =>
    simp only [compareHighHands, getRepeatedRank_congr hs1 4, getRepeatedRank_congr hs2 4,
      kickerMax_ne_congr hs1, kickerMax_ne_congr hs2]
  | fullHouse =>
    simp only [compareHighHands, getRepeatedRank_congr hs1 3, getRepeatedRank_congr hs2 3,
      getRepeatedRank_congr hs1 2, getRepeatedRank_congr hs2 2]
  | flush =>
    simp only [compareHighHands, descValues_congr hs1, descValues_congr hs2]
  | highCard =>
    simp only [compareHighHands, descValues_congr hs1, descValues_congr hs2]
  | threeOfAKind =>
    simp only [compareHighHands, getRepeatedRank_congr hs1 3, getRepeatedRank_congr hs2 3,
      kickersDesc_congr hs1, kickersDesc_congr hs2]
  | twoPair =>
    simp only [compareHighHands, getTwoPairRanks_congr hs1, getTwoPairRanks_congr hs2,
      kickerMax_ne2_congr hs1, kickerMax_ne2_congr hs2]
  | onePair =>
    simp only [compareHighHands, getRepeatedRank_congr hs1 2, getRepeatedRank_congr hs2 2,
      kickersDesc_congr hs1, kickersDesc_congr hs2]

theorem findBestHighStep_congr {a b : HandEvaluation} {h h' : List Card}
    (hab : evalSR a = evalSR b) (hsr : MapSR h h') :
    (findBestHighStep a h).map evalSR = (findBestHighStep b h').map evalSR := by
  have hrank : a.bestHighRank = b.bestHighRank := congrArg (fun t => t.1) hab
  have hhigh : a.bestHighHand.map srOf = b.bestHighHand.map srOf :=
    congrArg (fun t => t.2.1) hab
  have hlow : a.bestLowHand.map (fun l => l.map srOf) = b.bestLowHand.map (fun l => l.map srOf) :=
    congrArg (fun t => t.2.2) hab
  have hlen : a.bestHighHand.length = b.bestHighHand.length := by
    have hc := congrArg List.length hhigh
    simpa using hc
  have heval : evaluateHand h = evaluateHand h' := evaluateHand_congr hsr
  have hcmp : compareHighHands h a.bestHighHand (evaluateHand h) =
      compareHighHands h' b.bestHighHand (evaluateHand h) :=
    compareHighHands_congr hsr hhigh _
  simp only [findBestHighStep]
  rw [← heval, ← hrank, ← hlen, ← hcmp]
  split_ifs with h1 h2 h3
  · simp only [Option.map_some', evalSR]
    simp [show h.map srOf = h'.map srOf from hsr, hlow]
  · simp only [Option.map_some', evalSR]
    simp [show h.map srOf = h'.map srOf from hsr, hlow]
  · cases hc : compareHighHands h a.bestHighHand (evaluateHand h) with
    | none => rfl
    | some v =>
      dsimp only
      split_ifs with hv
      · simp only [Option.map_some', evalSR]
        simp [show h.map srOf = h'.map srOf from hsr, hlow, hrank]
      · simp only [Option.map_some']
        rw [hab]
  · simp only [Option.map_some']
    rw [hab]

theorem findBestLowStep_congr {a b : HandEvaluation} {h h' : List Card}
    (hab : evalSR a = evalSR b) (hsr : MapSR h h') :
    evalSR (findBestLowStep a h) = evalSR (findBestLowStep b h') := by
  have hrank : a.bestHighRank = b.bestHighRank := congrArg (fun t => t.1) hab
  have hhigh : a.bestHighHand.map srOf = b.bestHighHand.map srOf :=
    congrArg (fun t => t.2.1) hab
  have hlow : a.bestLowHand.map (fun l => l.map srOf) = b.bestLowHand.map (fun l => l.map srOf) :=
    congrArg (fun t => t.2.2) hab
  have hql : isQualifyingLow h = isQualifyingLow h' := isQualifyingLow_congr hsr
  simp only [findBestLowStep]
  rw [← hql]
  split_ifs with hq
  · cases ol : a.bestLowHand with
    | none =>
      cases ol' : b.bestLowHand with
      | none =>
        simp only [evalSR]
        simp [hrank, hhigh, show h.map srOf = h'.map srOf from hsr]
      | some bl' =>
        rw [ol, ol'] at hlow
        simp at hlow
    | some bl =>
      cases ol' : b.bestLowHand with
      | none =>
        rw [ol, ol'] at hlow
        simp at hlow
      | some bl' =>
        rw [ol, ol'] at hlow
        simp only [Option.map_some', Option.some.injEq] at hlow
        have hclow : compareLowHands h bl = compareLowHands h' bl' :=
          compareLowHands_congr hsr hlow
        dsimp only
        rw [← hclow]
        split_ifs with hcl
        · simp only [evalSR]
          simp [hrank, hhigh, show h.map srOf = h'.map srOf from hsr]
        · exact hab
  · exact hab

theorem findBestStep_congr {a b : HandEvaluation} {h h' : List Card}
    (hab : evalSR a = evalSR b) (hsr : MapSR h h') :
    (findBestStep a h).map evalSR = (findBestStep b h').map evalSR := by
  simp only [findBestStep]
  have hh := findBestHighStep_congr hab hsr
  cases o : findBestHighStep a h with
  | none =>
    cases o' : findBestHighStep b h' with
    | none => rfl
    | some y => rw [o, o'] at hh; simp at hh
  | some x =>
    cases o' : findBestHighStep b h' with
    | none => rw [o, o'] at hh; simp at hh
    | some y =>
      rw [o, o'] at hh
      simp only [Option.map_some', Option.some.injEq] at hh
      simp only [Option.map_some', Option.some.injEq]
      exact findBestLowStep_congr hh hsr

theorem forall₂_append_both {α β : Type} {R : α → β → Prop} :
    ∀ {a : List α} {b : List β} {c : List α} {d : List β},
      List.Forall₂ R a b → List.Forall₂ R c d → List.Forall₂ R (a ++ c) (b ++ d)
  | _, _, _, _, List.Forall₂.nil, h => by simpa using h
  | _, _, _, _, List.Forall₂.cons h1 h2, h =>
    List.Forall₂.cons h1 (forall₂_append_both h2 h)

theorem forall₂_map_cons {x y : Card} (hxy : srOf x = srOf y) :
    ∀ {cs cs' : List (List Card)}, List.Forall₂ MapSR cs cs' →
      List.Forall₂ MapSR (cs.map (fun sub => x :: sub)) (cs'.map (fun sub => y :: sub))
  | _, _, List.Forall₂.nil => List.Forall₂.nil
  | _, _, List.Forall₂.cons hab hrest =>
    List.Forall₂.cons (show MapSR _ _ by
      simp only [MapSR, List.map_cons, hxy]
      rw [show List.map srOf _ = List.map srOf _ from hab])
      (forall₂_map_cons hxy hrest)

theorem combinations_congr : ∀ (xs ys : List Card), MapSR xs ys → ∀ (k : ℕ),
    List.Forall₂ MapSR (combinations xs k) (combinations ys k)
  | xs, ys, h, 0 => by
    simp only [combinations]
    exact List.Forall₂.cons rfl List.Forall₂.nil
  | [], ys, h, k + 1 => by
    have hnil : ys = [] := by
      cases ys with
      | nil => rfl
      | cons y yt => simp [MapSR] at h
    subst hnil
    simp only [combinations]
    exact List.Forall₂.nil
  | x :: xt, ys, h, k + 1 => by
    cases ys with
    | nil => simp [MapSR] at h
    | cons y yt =>
      have hparts : srOf x = srOf y ∧ MapSR xt yt := by
        simpa [MapSR] using h
      have hlen : xt.length = yt.length := by
        have hc := congrArg List.length hparts.2
        simpa using hc
      simp only [combinations, List.length_cons]
      simp only [hlen]
      split_ifs with g1 g2
      · exact List.Forall₂.nil
      · exact List.Forall₂.cons h List.Forall₂.nil
      · exact forall₂_append_both
          (forall₂_map_cons hparts.1 (combinations_congr xt yt hparts.2 k))
          (combinations_congr xt yt hparts.2 (k + 1))

theorem forall₂_pair_board {h1 h2 : List Card} (hh : MapSR h1 h2) :
    ∀ {bs bs' : List (List Card)}, List.Forall₂ MapSR bs bs' →
      List.Forall₂ PairSR (bs.map (fun boardCombo => (h1, boardCombo)))
        (bs'.map (fun boardCombo => (h2, boardCombo)))
  | _, _, List.Forall₂.nil => List.Forall₂.nil
  | _, _, List.Forall₂.cons hab hrest =>
    List.Forall₂.cons ⟨hh, hab⟩ (forall₂_pair_board hh hrest)

theorem forall₂_pair_blocks {bs bs' : List (List Card)}
    (hb : List.Forall₂ MapSR bs bs') :
    ∀ {hs hs' : List (List Card)}, List.Forall₂ MapSR hs hs' →
      List.Forall₂ PairSR
        (hs.flatMap (fun holeCombo => bs.map (fun boardCombo => (holeCombo, boardCombo))))
        (hs'.flatMap (fun holeCombo => bs'.map (fun boardCombo => (holeCombo, boardCombo))))
  | _, _, List.Forall₂.nil => List.Forall₂.nil
  | _, _, List.Forall₂.cons hab hrest =>
    forall₂_append_both (forall₂_pair_board hab hb) (forall₂_pair_blocks hb hrest)

theorem allCombinations_congr {p p' c c' : List Card} (hp : MapSR p p') (hc : MapSR c c')
    (n : ℕ) :
    List.Forall₂ PairSR (allCombinations p c n) (allCombinations p' c' n) := by
  unfold allCombinations
  split_ifs with hn
  · exact forall₂_append_both
      (forall₂_pair_blocks (combinations_congr c c' hc 4) (combinations_congr p p' hp 1))
      (forall₂_pair_blocks (combinations_congr c c' hc 3) (combinations_congr p p' hp 2))
  · exact forall₂_pair_blocks (combinations_congr c c' hc 3) (combinations_congr p p' hp 2)

theorem foldlM_step_congr :
    ∀ {hs hs' : List (List Card × List Card)}, List.Forall₂ PairSR hs hs' →
      ∀ {a b : HandEvaluation}, evalSR a = evalSR b →
      (hs.foldlM (fun acc combo => findBestStep acc (combo.1 ++ combo.2)) a).map evalSR =
      (hs'.foldlM (fun acc combo => findBestStep acc (combo.1 ++ combo.2)) b).map evalSR := by
  intro hs hs' hf
  induction hf with
  | nil =>
    intro a b hab
    simp [hab]
  | @cons x y xt yt hxy hrest ih =>
    intro a b hab
    simp only [List.foldlM_cons]
    have hsr : MapSR (x.1 ++ x.2) (y.1 ++ y.2) := by
      simp only [MapSR, List.map_append]
      rw [show List.map srOf x.1 = List.map srOf y.1 from hxy.1,
        show List.map srOf x.2 = List.map srOf y.2 from hxy.2]
    have hstep := findBestStep_congr hab hsr
    cases o : findBestStep a (x.1 ++ x.2) with
    | none =>
      cases o' : findBestStep b (y.1 ++ y.2) with
      | none => rfl
      | some v => rw [o, o'] at hstep; simp at hstep
    | some u =>
      cases o' : findBestStep b (y.1 ++ y.2) with
      | none => rw [o, o'] at hstep; simp at hstep
      | some v =>
        rw [o, o'] at hstep
        simp only [Option.map_some', Option.some.injEq] at hstep
        exact ih hstep

/-- C9: the evaluation result depends only on the (suit, rank) content of
the inputs, never on per-instance ids: two `findBestHand` calls whose
private and community card sequences agree pointwise in suit and rank
yield Evaluations equal by value — same category, same (suit, rank)
sequence for the best high hand, and the same low-hand outcome (content or
absence); with identical inputs this gives determinism. -/
theorem findBestHand_id_independent (p c p' c' : List Card) (n : ℕ)
    (hp : p.map srOf = p'.map srOf) (hc : c.map srOf = c'.map srOf) :
    (findBestHand p c n).map evalSR = (findBestHand p' c' n).map evalSR := by
  unfold findBestHand
  exact foldlM_step_congr (allCombinations_congr hp hc n) rfl

/-- C9 witness: the §8 example inputs with all per-instance ids renamed
produce a value-equal Evaluation. -/
theorem findBestHand_id_independent_witness :
    (findBestHand privC2 commC2 2).map evalSR =
    (findBestHand privC2ids commC2ids 2).map evalSR :=
  findBestHand_id_independent privC2 commC2 privC2ids commC2ids 2 (by decide) (by decide)

end HandReadings
